import Mathlib

/-!
# Verification of the SONaa author-resolution / article-deduplication core

Shallow embedding of the core of
`stowarzyszenieotwartejnauki/Estimating-replicability-of-Polish-psychology`:

* `SONaa_Tools.py` — `NameStandardizer._standardize`, `AuthorLookup`,
  `NameMatcher` (exact / alternative / component-scored matching);
* `SONaa.py` — `SONaa.create_article_id`, `SONaa.merge_articles`,
  `SONaa.identify_title_duplicates`, the per-group merge step of
  `SONaa.clean`;
* `data_creation_code/tools_SONaa.py` — `create_Article_ID`, `clean_date`.

Python strings are modelled as `List Char`; Python `None`/`NaN` (and
non-string values where the code branches on `isinstance`) as `Option`;
Python dicts as association lists with assignment-replaces semantics;
the pandas `DataFrame` of articles as a `List Article` indexed by
position.  `unicodedata.normalize('NFKD', ·)` and `str.lower()` are
modelled by finite tables covering the code points the source's
character tables and these theorems touch, with the identity as default
(the table entries are the true Unicode NFKD decompositions).  Calls to
`random` are modelled by passing the random draw as an explicit
argument.
-/

namespace SONaa

/-- Python `str`, as a list of code points. -/
abbrev Str := List Char

/-- Code points matched by Python's regex `\s` (relevant subset:
ASCII whitespace, the C1 separators, and the Unicode space separators,
which include every entry of `NameStandardizer.WHITESPACE_CHARS`). -/
def pySpaceChars : List Char :=
  [' ', '\u0009', '\u000A', '\u000B', '\u000C', '\u000D',
   '\u001C', '\u001D', '\u001E', '\u001F', '\u0085', '\u00A0',
   '\u1680', '\u2000', '\u2001', '\u2002', '\u2003', '\u2004',
   '\u2005', '\u2006', '\u2007', '\u2008', '\u2009', '\u200A',
   '\u2028', '\u2029', '\u202F', '\u205F', '\u3000']

/-- Python regex `\s` on a single character. -/
def isSp (c : Char) : Bool := decide (c ∈ pySpaceChars)

/-- `NameStandardizer.DASH_CHARS` (SONaa_Tools.py lines 13-18). -/
def dashChars : List Char :=
  ['-', '\u058A', '\u05BE', '\u1400', '\u1806', '\u2010',
   '\u2011', '\u2012', '\u2013', '\u2014', '\u2015', '\u2027',
   '\u2043', '\u2053', '\u207B', '\u208B', '\u2212', '\u2E17',
   '\u2E1A', '\u301C', '\u3030', '\u30A0', '\uFE58', '\uFE63',
   '\uFF0D']

/-- `NameStandardizer.WHITESPACE_CHARS` (SONaa_Tools.py lines 20-24). -/
def wsChars : List Char :=
  ['\u00A0', '\u1680', '\u2000', '\u2001', '\u2002', '\u2003',
   '\u2004', '\u2005', '\u2006', '\u2007', '\u2008', '\u2009',
   '\u200A', '\u202F', '\u205F', '\u3000']

/-- Unicode NFKD decompositions of the code points that the source's
character tables mention and that are not NFKD-stable, together with
the fullwidth low line `U+FF3F` (whose decomposition is the plain
underscore).  Every other code point is treated as NFKD-stable by
`nfkdChar`. -/
def nfkdTable : List (Char × List Char) :=
  [('\u00A0', [' ']), ('\u2000', [' ']), ('\u2001', [' ']),
   ('\u2002', [' ']), ('\u2003', [' ']), ('\u2004', [' ']),
   ('\u2005', [' ']), ('\u2006', [' ']), ('\u2007', [' ']),
   ('\u2008', [' ']), ('\u2009', [' ']), ('\u200A', [' ']),
   ('\u2011', ['\u2010']), ('\u202F', [' ']), ('\u205F', [' ']),
   ('\u207B', ['\u2212']), ('\u208B', ['\u2212']), ('\u3000', [' ']),
   ('\uFE58', ['\u2014']), ('\uFE63', ['-']), ('\uFF0D', ['-']),
   ('\uFF3F', ['_'])]

/-- Model of `unicodedata.normalize('NFKD', ·)` on one code point. -/
def nfkdChar (c : Char) : List Char :=
  match nfkdTable.find? (fun e => e.1 = c) with
  | some e => e.2
  | none => [c]

/-- Uppercase-to-lowercase pairs of ASCII. -/
def lowerTable : List (Char × Char) :=
  [('A', 'a'), ('B', 'b'), ('C', 'c'), ('D', 'd'), ('E', 'e'),
   ('F', 'f'), ('G', 'g'), ('H', 'h'), ('I', 'i'), ('J', 'j'),
   ('K', 'k'), ('L', 'l'), ('M', 'm'), ('N', 'n'), ('O', 'o'),
   ('P', 'p'), ('Q', 'q'), ('R', 'r'), ('S', 's'), ('T', 't'),
   ('U', 'u'), ('V', 'v'), ('W', 'w'), ('X', 'x'), ('Y', 'y'),
   ('Z', 'z')]

/-- Model of Python `str.lower()` on one code point (faithful on
ASCII, identity elsewhere; every string these theorems evaluate is
covered). -/
def pyLower (c : Char) : Char :=
  match lowerTable.find? (fun e => e.1 = c) with
  | some e => e.2
  | none => c

/-- `str.replace(a, b)` for single characters. -/
def replAll (a b : Char) (l : Str) : Str :=
  l.map (fun c => if c = a then b else c)

/-- The `for dash in self.DASH_CHARS: name_str.replace(dash, '-')`
loop: each dash-like character becomes a plain hyphen (the loop's
sequential replacements are equivalent to this single map because
every replacement target is the plain hyphen itself). -/
def mapDash (l : Str) : Str :=
  l.map (fun c => if c ∈ dashChars then '-' else c)

/-- The `for ws in self.WHITESPACE_CHARS: name_str.replace(ws, ' ')`
loop. -/
def mapWs (l : Str) : Str :=
  l.map (fun c => if c ∈ wsChars then ' ' else c)

/-- One directed half of `re.sub(r'\s*-\s*', '-', s)`: delete every
`\s` character that follows a hyphen (through a whitespace run).  The
flag records that the most recently kept character chain ends in a
hyphen with only deleted whitespace since. -/
def rmSpAfterHyphen : Bool → Str → Str
  | _, [] => []
  | afterH, c :: rest =>
    if isSp c then
      if afterH then rmSpAfterHyphen afterH rest
      else c :: rmSpAfterHyphen afterH rest
    else if c = '-' then '-' :: rmSpAfterHyphen true rest
    else c :: rmSpAfterHyphen false rest

/-- Model of `re.sub(r'\s*-\s*', '-', s)`: every run of `\s`
characters adjacent to a hyphen is deleted (each regex match consumes
one hyphen together with the greedy whitespace around it, so the
effect is exactly the deletion of whitespace next to hyphens;
whitespace before hyphens is handled by the reversed pass). -/
def rsah (l : Str) : Str :=
  (rmSpAfterHyphen false ((rmSpAfterHyphen false l).reverse)).reverse

/-- Model of `re.sub(r'\s+', ' ', s)`: each maximal run of `\s`
characters becomes a single plain space.  The flag records being
inside a run whose single space has already been emitted. -/
def collapseGo : Bool → Str → Str
  | _, [] => []
  | inRun, c :: rest =>
    if isSp c then
      if inRun then collapseGo true rest
      else ' ' :: collapseGo true rest
    else c :: collapseGo false rest

/-- Model of `re.sub(r'\s+', ' ', s)`. -/
def collapseWs (l : Str) : Str := collapseGo false l

/-- Model of Python `str.strip()` (strips `\s`-class characters from
both ends). -/
def stripPy (l : Str) : Str :=
  ((l.dropWhile isSp).reverse.dropWhile isSp).reverse

/-- Model of `str.lower()`. -/
def lowerPy (l : Str) : Str := l.map pyLower

/-- `NameStandardizer._standardize` (SONaa_Tools.py lines 36-77) on a
string argument: underscores to spaces, NFKD, dash variants to `-`,
spaces removed around hyphens, whitespace variants to ` `, whitespace
runs collapsed, strip, optional lowercasing. -/
def standardizeStr (l : Str) (toLower : Bool) : Str :=
  let s1 := replAll '_' ' ' l
  let s2 := s1.flatMap nfkdChar
  let s3 := mapDash s2
  let s4 := rsah s3
  let s5 := mapWs s4
  let s6 := collapseWs s5
  let s7 := stripPy s6
  if toLower then lowerPy s7 else s7

/-! ### Canonical form of standardized strings

`standardizeStr` maps every input (containing no character whose NFKD
decomposition introduces an underscore) into the canonical form below,
and is the identity on canonical strings — which yields idempotence. -/

/-- Pointwise condition on characters of a standardized string. -/
abbrev charOK (low : Bool) (c : Char) : Prop :=
  c ≠ '_' ∧ nfkdChar c = [c] ∧ (c ∈ dashChars → c = '-') ∧
    (isSp c = true → c = ' ') ∧ (low = true → pyLower c = c)

/-- Condition on adjacent characters of a standardized string: no two
adjacent whitespace characters and no whitespace adjacent to a
hyphen. -/
abbrev adjOK (a b : Char) : Prop :=
  ¬(isSp a = true ∧ isSp b = true) ∧ ¬(a = '-' ∧ isSp b = true) ∧
    ¬(isSp a = true ∧ b = '-')

/-- Canonical form of the output of `standardizeStr · low`. -/
structure Canon (low : Bool) (l : Str) : Prop where
  chars : ∀ c ∈ l, charOK low c
  adj : l.Chain' adjOK
  headOK : ∀ c, l.head? = some c → isSp c = false
  lastOK : ∀ c, l.getLast? = some c → isSp c = false

/-- A Python value passed where a string is expected: either an actual
string or a non-string value (`None`, `NaN`, a number, ...), which
`_standardize` maps to the empty string. -/
inductive PyVal where
  | str (s : Str)
  | nonStr
deriving DecidableEq

/-- `NameStandardizer._standardize` including the
`if not isinstance(name_str, str): return ""` guard. -/
def standardize (v : PyVal) (toLower : Bool) : Str :=
  match v with
  | .str s => standardizeStr s toLower
  | .nonStr => []

/-! ### Identity of each pipeline stage on canonical strings -/

/-- A `map` whose function fixes every element is the identity. -/
theorem map_fix {α : Type} {f : α → α} :
    ∀ {l : List α}, (∀ c ∈ l, f c = c) → l.map f = l
  | [], _ => rfl
  | a :: l, h => by
    simp only [List.map_cons, List.cons.injEq]
    exact ⟨h a (by simp), map_fix fun c hc => h c (by simp [hc])⟩

/-- `flatMap` over NFKD is the identity on NFKD-stable strings. -/
theorem flatMap_nfkd_fix :
    ∀ {l : Str}, (∀ c ∈ l, nfkdChar c = [c]) → l.flatMap nfkdChar = l
  | [], _ => rfl
  | a :: l, h => by
    simp only [List.flatMap_cons]
    rw [h a (by simp), flatMap_nfkd_fix fun c hc => h c (by simp [hc])]
    rfl

/-- The hyphen-trailing-space deletion pass is the identity on strings
with no whitespace following a hyphen. -/
theorem rmSpAfterHyphen_fix :
    ∀ (l : Str) (f : Bool),
      l.Chain' (fun a b => ¬(a = '-' ∧ isSp b = true)) →
      (f = true → ∀ c, l.head? = some c → isSp c = false) →
      rmSpAfterHyphen f l = l
  | [], _, _, _ => rfl
  | c :: r, f, hch, hf => by
    rw [List.chain'_cons'] at hch
    obtain ⟨hpair, hch⟩ := hch
    simp only [rmSpAfterHyphen]
    by_cases hsp : isSp c = true
    · rw [if_pos hsp]
      cases f with
      | true =>
        have h2 := hf rfl c rfl
        rw [h2] at hsp; exact absurd hsp (by simp)
      | false =>
        rw [if_neg (by simp)]
        rw [rmSpAfterHyphen_fix r false hch (by simp)]
    · rw [if_neg hsp]
      by_cases hd : c = '-'
      · rw [if_pos hd, hd]
        rw [rmSpAfterHyphen_fix r true hch ?_]
        intro _ d hdh
        have h3 := hpair d hdh
        rw [hd] at h3
        simpa using h3
      · rw [if_neg hd]
        rw [rmSpAfterHyphen_fix r false hch (by simp)]

/-- `rsah` is the identity on strings with no whitespace adjacent to a
hyphen. -/
theorem rsah_fix {l : Str}
    (h1 : l.Chain' (fun a b => ¬(a = '-' ∧ isSp b = true)))
    (h2 : l.Chain' (fun a b => ¬(isSp a = true ∧ b = '-'))) :
    rsah l = l := by
  unfold rsah
  rw [rmSpAfterHyphen_fix l false h1 (by simp)]
  rw [rmSpAfterHyphen_fix l.reverse false ?_ (by simp), List.reverse_reverse]
  rw [List.chain'_reverse]
  exact h2.imp fun hab => by simp only [flip]; tauto

/-- The whitespace-collapsing pass is the identity on strings whose
whitespace is a single plain space at a time. -/
theorem collapseGo_fix :
    ∀ (l : Str) (f : Bool),
      (∀ c ∈ l, isSp c = true → c = ' ') →
      l.Chain' (fun a b => ¬(isSp a = true ∧ isSp b = true)) →
      (f = true → ∀ c, l.head? = some c → isSp c = false) →
      collapseGo f l = l
  | [], _, _, _, _ => rfl
  | c :: r, f, hpt, hch, hf => by
    rw [List.chain'_cons'] at hch
    obtain ⟨hpair, hch⟩ := hch
    simp only [collapseGo]
    by_cases hsp : isSp c = true
    · rw [if_pos hsp]
      cases f with
      | true =>
        have h2 := hf rfl c rfl
        rw [h2] at hsp; exact absurd hsp (by simp)
      | false =>
        rw [if_neg (by simp)]
        have hc : c = ' ' := hpt c (by simp) hsp
        rw [collapseGo_fix r true (fun d hd => hpt d (by simp [hd])) hch ?_, hc]
        intro _ d hdh
        have h3 := hpair d hdh
        simp only [hsp, true_and] at h3
        simpa using h3
    · rw [if_neg hsp]
      rw [collapseGo_fix r false (fun d hd => hpt d (by simp [hd])) hch (by simp)]

/-- `stripPy` is the identity on strings with no leading or trailing
whitespace. -/
theorem stripPy_fix {l : Str}
    (hh : ∀ c, l.head? = some c → isSp c = false)
    (hl : ∀ c, l.getLast? = some c → isSp c = false) :
    stripPy l = l := by
  unfold stripPy
  have h1 : l.dropWhile isSp = l := by
    cases l with
    | nil => rfl
    | cons c r => rw [List.dropWhile_cons, if_neg (by simp [hh c rfl])]
  rw [h1]
  have h2 : l.reverse.dropWhile isSp = l.reverse := by
    cases hr : l.reverse with
    | nil => rfl
    | cons c r =>
      rw [List.dropWhile_cons, if_neg ?_]
      have : l.reverse.head? = some c := by rw [hr]; rfl
      rw [List.head?_reverse] at this
      simp [hl c this]
  rw [h2, List.reverse_reverse]

/-- Every entry of `WHITESPACE_CHARS` is regex whitespace. -/
theorem wsChars_sp : ∀ d ∈ wsChars, isSp d = true := by decide

/-- `standardizeStr` is the identity on canonical strings. -/
theorem standardizeStr_fix {low : Bool} {l : Str} (h : Canon low l) :
    standardizeStr l low = l := by
  obtain ⟨hch, hadj, hhead, hlast⟩ := h
  have e1 : replAll '_' ' ' l = l :=
    map_fix fun c hc => if_neg ((hch c hc).1)
  have e2 : l.flatMap nfkdChar = l := flatMap_nfkd_fix fun c hc => (hch c hc).2.1
  have e3 : mapDash l = l := by
    refine map_fix fun c hc => ?_
    by_cases hd : c ∈ dashChars
    · rw [if_pos hd, ((hch c hc).2.2.1 hd)]
    · rw [if_neg hd]
  have e4 : rsah l = l :=
    rsah_fix (hadj.imp fun a b h => h.2.1) (hadj.imp fun a b h => h.2.2)
  have e5 : mapWs l = l := by
    refine map_fix fun c hc => ?_
    by_cases hw : c ∈ wsChars
    · rw [if_pos hw, (hch c hc).2.2.2.1 (wsChars_sp c hw)]
    · rw [if_neg hw]
  have e6 : collapseWs l = l := by
    unfold collapseWs
    exact collapseGo_fix l false (fun c hc => (hch c hc).2.2.2.1)
      (hadj.imp fun a b h => h.1) (by simp)
  have e7 : stripPy l = l := stripPy_fix hhead hlast
  cases low with
  | false => simp [standardizeStr, e1, e2, e3, e4, e5, e6, e7]
  | true =>
    have e8 : lowerPy l = l := map_fix fun c hc => (hch c hc).2.2.2.2 rfl
    simp [standardizeStr, e1, e2, e3, e4, e5, e6, e7, e8]

/-! ### The pipeline lands in canonical form -/

/-- Characters of NFKD decompositions are themselves NFKD-stable. -/
theorem nfkdTable_stable : ∀ e ∈ nfkdTable, ∀ d ∈ e.2, nfkdChar d = [d] := by
  decide

/-- The underscore arises from NFKD only out of `U+FF3F`. -/
theorem nfkdTable_underscore : ∀ e ∈ nfkdTable, '_' ∈ e.2 → e.1 = '＿' := by
  decide

/-- Character-level facts about the ASCII lowercase table. -/
theorem lowerTable_facts : ∀ e ∈ lowerTable,
    pyLower e.2 = e.2 ∧ isSp e.1 = false ∧ isSp e.2 = false ∧
    e.1 ∉ dashChars ∧ e.2 ∉ dashChars ∧ e.1 ≠ '_' ∧ e.2 ≠ '_' ∧
    nfkdChar e.2 = [e.2] ∧ e.1 ≠ '-' ∧ e.2 ≠ '-' := by
  decide

/-- Members of any NFKD decomposition are NFKD-stable. -/
theorem nfkd_mem_stable {c d : Char} (h : d ∈ nfkdChar c) : nfkdChar d = [d] := by
  unfold nfkdChar at h ⊢
  cases hf : nfkdTable.find? (fun e => e.1 = c) with
  | some e =>
    rw [hf] at h
    have := nfkdTable_stable e (List.mem_of_find?_eq_some hf) d h
    unfold nfkdChar at this
    exact this
  | none =>
    rw [hf] at h
    simp only [List.mem_singleton] at h
    subst h
    rw [hf]

/-- An underscore in a decomposition comes from `_` or `U+FF3F`. -/
theorem nfkd_mem_underscore {c : Char} (h : '_' ∈ nfkdChar c) :
    c = '_' ∨ c = '＿' := by
  unfold nfkdChar at h
  cases hf : nfkdTable.find? (fun e => e.1 = c) with
  | some e =>
    rw [hf] at h
    have h1 := nfkdTable_underscore e (List.mem_of_find?_eq_some hf) h
    have h2 := List.find?_some hf
    simp only [decide_eq_true_eq] at h2
    exact Or.inr (h2 ▸ h1)
  | none =>
    rw [hf] at h
    simp only [List.mem_singleton] at h
    exact Or.inl h.symm

/-- `pyLower` either fixes a character or maps it by the table. -/
theorem pyLower_cases (c : Char) :
    pyLower c = c ∨ ∃ e ∈ lowerTable, e.1 = c ∧ pyLower c = e.2 := by
  unfold pyLower
  cases hf : lowerTable.find? (fun e => e.1 = c) with
  | none => exact Or.inl rfl
  | some e =>
    refine Or.inr ⟨e, List.mem_of_find?_eq_some hf, ?_, rfl⟩
    have := List.find?_some hf
    simpa using this

/-- `pyLower` is idempotent on every character. -/
theorem pyLower_idem (c : Char) : pyLower (pyLower c) = pyLower c := by
  rcases pyLower_cases c with h | ⟨e, he, _, h⟩
  · rw [h, h]
  · rw [h]; exact (lowerTable_facts e he).1

/-- `pyLower` preserves whitespace classification. -/
theorem pyLower_sp (c : Char) : isSp (pyLower c) = isSp c := by
  rcases pyLower_cases c with h | ⟨e, he, h1, h⟩
  · rw [h]
  · rw [h, ← h1, (lowerTable_facts e he).2.1, (lowerTable_facts e he).2.2.1]

/-- `pyLower` preserves hyphens exactly. -/
theorem pyLower_hyphen (c : Char) : pyLower c = '-' ↔ c = '-' := by
  rcases pyLower_cases c with h | ⟨e, he, h1, h⟩
  · rw [h]
  · rw [h, ← h1]
    have hf := lowerTable_facts e he
    simp [hf.2.2.2.2.2.2.2.2.1, hf.2.2.2.2.2.2.2.2.2]

/-- `pyLower` preserves non-underscores. -/
theorem pyLower_underscore {c : Char} (h : c ≠ '_') : pyLower c ≠ '_' := by
  rcases pyLower_cases c with h1 | ⟨e, he, _, h1⟩
  · rw [h1]; exact h
  · rw [h1]; exact (lowerTable_facts e he).2.2.2.2.2.2.1

/-- `pyLower` preserves NFKD stability. -/
theorem pyLower_nfkd {c : Char} (h : nfkdChar c = [c]) :
    nfkdChar (pyLower c) = [pyLower c] := by
  rcases pyLower_cases c with h1 | ⟨e, he, _, h1⟩
  · rw [h1]; exact h
  · rw [h1]; exact (lowerTable_facts e he).2.2.2.2.2.2.2.1

/-- `pyLower` preserves the dash-characters-are-hyphens condition. -/
theorem pyLower_dash {c : Char} (h : c ∈ dashChars → c = '-') :
    pyLower c ∈ dashChars → pyLower c = '-' := by
  rcases pyLower_cases c with h1 | ⟨e, he, _, h1⟩
  · rw [h1]; exact h
  · rw [h1]; exact fun hm => absurd hm (lowerTable_facts e he).2.2.2.2.1

/-- Branch equation: whitespace is dropped while the flag is set. -/
theorem rmA_sp_true {c : Char} {r : Str} (h : isSp c = true) :
    rmSpAfterHyphen true (c :: r) = rmSpAfterHyphen true r := by
  simp [rmSpAfterHyphen, h]

/-- Branch equation: whitespace is kept while the flag is clear. -/
theorem rmA_sp_false {c : Char} {r : Str} (h : isSp c = true) :
    rmSpAfterHyphen false (c :: r) = c :: rmSpAfterHyphen false r := by
  simp [rmSpAfterHyphen, h]

/-- Branch equation: a hyphen is kept and sets the flag. -/
theorem rmA_hyphen (f : Bool) (r : Str) :
    rmSpAfterHyphen f ('-' :: r) = '-' :: rmSpAfterHyphen true r := by
  simp [rmSpAfterHyphen, show isSp '-' = false by decide]

/-- Branch equation: any other character is kept and clears the flag. -/
theorem rmA_other {c : Char} (f : Bool) (r : Str)
    (h1 : isSp c = false) (h2 : c ≠ '-') :
    rmSpAfterHyphen f (c :: r) = c :: rmSpAfterHyphen false r := by
  simp [rmSpAfterHyphen, h1, h2]

/-- Branch equation: whitespace inside a run is dropped. -/
theorem clG_sp_true {c : Char} {r : Str} (h : isSp c = true) :
    collapseGo true (c :: r) = collapseGo true r := by
  simp [collapseGo, h]

/-- Branch equation: whitespace starting a run emits one space. -/
theorem clG_sp_false {c : Char} {r : Str} (h : isSp c = true) :
    collapseGo false (c :: r) = ' ' :: collapseGo true r := by
  simp [collapseGo, h]

/-- Branch equation: a non-whitespace character is kept. -/
theorem clG_other {c : Char} (f : Bool) (r : Str) (h : isSp c = false) :
    collapseGo f (c :: r) = c :: collapseGo false r := by
  simp [collapseGo, h]

/-- The first pass of `rsah` keeps the head of its input. -/
theorem rmSpAfterHyphen_false_head (l : Str) :
    (rmSpAfterHyphen false l).head? = l.head? := by
  cases l with
  | nil => rfl
  | cons c r =>
    simp only [rmSpAfterHyphen]
    by_cases hsp : isSp c = true
    · rw [if_pos hsp, if_neg (by simp)]; rfl
    · rw [if_neg hsp]
      by_cases hd : c = '-'
      · rw [if_pos hd, hd]; rfl
      · rw [if_neg hd]; rfl

/-- After a hyphen the deletion pass only emits non-whitespace next. -/
theorem rmSpAfterHyphen_true_head :
    ∀ (l : Str) (c : Char),
      (rmSpAfterHyphen true l).head? = some c → isSp c = false
  | [], c, h => by simp [rmSpAfterHyphen] at h
  | d :: r, c, h => by
    by_cases hsp : isSp d = true
    · rw [rmA_sp_true hsp] at h
      exact rmSpAfterHyphen_true_head r c h
    · by_cases hd : d = '-'
      · subst hd
        rw [rmA_hyphen] at h
        simp only [List.head?_cons, Option.some.injEq] at h
        subst h; decide
      · rw [rmA_other true r (by simpa using hsp) hd] at h
        simp only [List.head?_cons, Option.some.injEq] at h
        subst h; simpa using hsp

/-- The deletion pass removes all whitespace following hyphens. -/
theorem rmSpAfterHyphen_noHS :
    ∀ (l : Str) (f : Bool),
      (rmSpAfterHyphen f l).Chain' (fun a b => ¬(a = '-' ∧ isSp b = true))
  | [], _ => by simp [rmSpAfterHyphen]
  | c :: r, f => by
    by_cases hsp : isSp c = true
    · cases f with
      | true => rw [rmA_sp_true hsp]; exact rmSpAfterHyphen_noHS r true
      | false =>
        rw [rmA_sp_false hsp, List.chain'_cons']
        refine ⟨fun y _ => ?_, rmSpAfterHyphen_noHS r false⟩
        rintro ⟨rfl, -⟩
        revert hsp; decide
    · by_cases hd : c = '-'
      · subst hd
        rw [rmA_hyphen, List.chain'_cons']
        refine ⟨fun y hy => ?_, rmSpAfterHyphen_noHS r true⟩
        rintro ⟨-, hsy⟩
        rw [rmSpAfterHyphen_true_head r y hy] at hsy
        exact absurd hsy (by simp)
      · rw [rmA_other f r (by simpa using hsp) hd, List.chain'_cons']
        exact ⟨fun y _ => fun hx => hd hx.1, rmSpAfterHyphen_noHS r false⟩

/-- The deletion pass preserves absence of whitespace before hyphens. -/
theorem rmSpAfterHyphen_noSH :
    ∀ (l : Str) (f : Bool),
      l.Chain' (fun a b => ¬(isSp a = true ∧ b = '-')) →
      (rmSpAfterHyphen f l).Chain' (fun a b => ¬(isSp a = true ∧ b = '-'))
  | [], _, _ => by simp [rmSpAfterHyphen]
  | c :: r, f, hch => by
    rw [List.chain'_cons'] at hch
    obtain ⟨hpair, hch⟩ := hch
    by_cases hsp : isSp c = true
    · cases f with
      | true => rw [rmA_sp_true hsp]; exact rmSpAfterHyphen_noSH r true hch
      | false =>
        rw [rmA_sp_false hsp, List.chain'_cons']
        refine ⟨fun y hy => ?_, rmSpAfterHyphen_noSH r false hch⟩
        rw [rmSpAfterHyphen_false_head r] at hy
        exact hpair y hy
    · by_cases hd : c = '-'
      · subst hd
        rw [rmA_hyphen, List.chain'_cons']
        refine ⟨fun y _ => ?_, rmSpAfterHyphen_noSH r true hch⟩
        rintro ⟨hsc, -⟩
        exact hsp hsc
      · rw [rmA_other f r (by simpa using hsp) hd, List.chain'_cons']
        refine ⟨fun y hy => ?_, rmSpAfterHyphen_noSH r false hch⟩
        rw [rmSpAfterHyphen_false_head r] at hy
        exact hpair y hy

/-- The deletion pass only drops characters, never adds. -/
theorem rmSpAfterHyphen_subset :
    ∀ (l : Str) (f : Bool) (c : Char), c ∈ rmSpAfterHyphen f l → c ∈ l
  | [], _, c, h => by simp [rmSpAfterHyphen] at h
  | d :: r, f, c, h => by
    by_cases hsp : isSp d = true
    · cases f with
      | true =>
        rw [rmA_sp_true hsp] at h
        exact List.mem_cons_of_mem d (rmSpAfterHyphen_subset r true c h)
      | false =>
        rw [rmA_sp_false hsp] at h
        rcases List.mem_cons.mp h with h | h
        · exact h ▸ List.mem_cons_self d r
        · exact List.mem_cons_of_mem d (rmSpAfterHyphen_subset r false c h)
    · by_cases hd : d = '-'
      · subst hd
        rw [rmA_hyphen] at h
        rcases List.mem_cons.mp h with h | h
        · exact h ▸ List.mem_cons_self '-' r
        · exact List.mem_cons_of_mem '-' (rmSpAfterHyphen_subset r true c h)
      · rw [rmA_other f r (by simpa using hsp) hd] at h
        rcases List.mem_cons.mp h with h | h
        · exact h ▸ List.mem_cons_self d r
        · exact List.mem_cons_of_mem d (rmSpAfterHyphen_subset r false c h)

/-- Inside a run the collapser only emits non-whitespace next. -/
theorem collapseGo_true_head :
    ∀ (l : Str) (c : Char), (collapseGo true l).head? = some c → isSp c = false
  | [], c, h => by simp [collapseGo] at h
  | d :: r, c, h => by
    by_cases hsp : isSp d = true
    · rw [clG_sp_true hsp] at h
      exact collapseGo_true_head r c h
    · rw [clG_other true r (by simpa using hsp)] at h
      simp only [List.head?_cons, Option.some.injEq] at h
      exact h ▸ (by simpa using hsp)

/-- Characters of the collapsed string are spaces or input characters. -/
theorem collapseGo_mem :
    ∀ (l : Str) (f : Bool) (c : Char), c ∈ collapseGo f l → c = ' ' ∨ c ∈ l
  | [], _, c, h => by simp [collapseGo] at h
  | d :: r, f, c, h => by
    by_cases hsp : isSp d = true
    · cases f with
      | true =>
        rw [clG_sp_true hsp] at h
        rcases collapseGo_mem r true c h with h | h
        · exact Or.inl h
        · exact Or.inr (List.mem_cons_of_mem d h)
      | false =>
        rw [clG_sp_false hsp] at h
        rcases List.mem_cons.mp h with h | h
        · exact Or.inl h
        · rcases collapseGo_mem r true c h with h | h
          · exact Or.inl h
          · exact Or.inr (List.mem_cons_of_mem d h)
    · rw [clG_other f r (by simpa using hsp)] at h
      rcases List.mem_cons.mp h with h | h
      · exact Or.inr (h ▸ List.mem_cons_self d r)
      · rcases collapseGo_mem r false c h with h | h
        · exact Or.inl h
        · exact Or.inr (List.mem_cons_of_mem d h)

/-- All whitespace in the collapsed string is the plain space. -/
theorem collapseGo_sp :
    ∀ (l : Str) (f : Bool) (c : Char),
      c ∈ collapseGo f l → isSp c = true → c = ' '
  | [], _, c, h, _ => by simp [collapseGo] at h
  | d :: r, f, c, h, hc => by
    by_cases hsp : isSp d = true
    · cases f with
      | true => rw [clG_sp_true hsp] at h; exact collapseGo_sp r true c h hc
      | false =>
        rw [clG_sp_false hsp] at h
        rcases List.mem_cons.mp h with h | h
        · exact h
        · exact collapseGo_sp r true c h hc
    · rw [clG_other f r (by simpa using hsp)] at h
      rcases List.mem_cons.mp h with h | h
      · exact absurd (h ▸ hc) (by simpa using hsp)
      · exact collapseGo_sp r false c h hc

/-- The collapsed string has no adjacent whitespace. -/
theorem collapseGo_noSpSp :
    ∀ (l : Str) (f : Bool),
      (collapseGo f l).Chain' (fun a b => ¬(isSp a = true ∧ isSp b = true))
  | [], _ => by simp [collapseGo]
  | d :: r, f => by
    by_cases hsp : isSp d = true
    · cases f with
      | true => rw [clG_sp_true hsp]; exact collapseGo_noSpSp r true
      | false =>
        rw [clG_sp_false hsp, List.chain'_cons']
        refine ⟨fun y hy => ?_, collapseGo_noSpSp r true⟩
        rintro ⟨-, hsy⟩
        rw [collapseGo_true_head r y hy] at hsy
        exact absurd hsy (by simp)
    · rw [clG_other f r (by simpa using hsp), List.chain'_cons']
      refine ⟨fun y _ => ?_, collapseGo_noSpSp r false⟩
      rintro ⟨hsd, -⟩
      exact hsp hsd

/-- Head characterization of the collapser with a clear flag. -/
theorem collapseGo_false_head (r : Str) (c : Char)
    (h : (collapseGo false r).head? = some c) :
    ∃ d, r.head? = some d ∧ ((isSp d = true ∧ c = ' ') ∨ c = d) := by
  cases r with
  | nil => simp [collapseGo] at h
  | cons d r =>
    by_cases hsp : isSp d = true
    · rw [clG_sp_false hsp] at h
      simp only [List.head?_cons, Option.some.injEq] at h
      exact ⟨d, rfl, Or.inl ⟨hsp, h.symm⟩⟩
    · rw [clG_other false r (by simpa using hsp)] at h
      simp only [List.head?_cons, Option.some.injEq] at h
      exact ⟨d, rfl, Or.inr h.symm⟩

/-- The collapser preserves absence of whitespace after hyphens. -/
theorem collapseGo_noHS :
    ∀ (l : Str) (f : Bool),
      l.Chain' (fun a b => ¬(a = '-' ∧ isSp b = true)) →
      (collapseGo f l).Chain' (fun a b => ¬(a = '-' ∧ isSp b = true))
  | [], _, _ => by simp [collapseGo]
  | d :: r, f, hch => by
    rw [List.chain'_cons'] at hch
    obtain ⟨hpair, hch⟩ := hch
    by_cases hsp : isSp d = true
    · cases f with
      | true => rw [clG_sp_true hsp]; exact collapseGo_noHS r true hch
      | false =>
        rw [clG_sp_false hsp, List.chain'_cons']
        refine ⟨fun y _ => ?_, collapseGo_noHS r true hch⟩
        rintro ⟨h1, -⟩
        exact absurd h1 (by decide)
    · rw [clG_other f r (by simpa using hsp), List.chain'_cons']
      refine ⟨fun y hy => ?_, collapseGo_noHS r false hch⟩
      rintro ⟨hd, hsy⟩
      obtain ⟨e, he, hcase⟩ := collapseGo_false_head r y hy
      rcases hcase with ⟨hesp, -⟩ | hye
      · exact hpair e he ⟨hd, hesp⟩
      · exact hpair e he ⟨hd, hye ▸ hsy⟩

/-- After a whitespace run the collapser only emits a hyphen if the
input already had one after the run. -/
theorem collapseGo_true_nohyphen :
    ∀ (r : Str), r.Chain' (fun a b => ¬(isSp a = true ∧ b = '-')) →
      (∀ y, r.head? = some y → y ≠ '-') →
      ∀ d, (collapseGo true r).head? = some d → d ≠ '-'
  | [], _, _, d, h => by simp [collapseGo] at h
  | e :: r, hch, hh, d, h => by
    rw [List.chain'_cons'] at hch
    obtain ⟨hpair, hch⟩ := hch
    by_cases hsp : isSp e = true
    · rw [clG_sp_true hsp] at h
      refine collapseGo_true_nohyphen r hch (fun y hy hy2 => ?_) d h
      exact hpair y hy ⟨hsp, hy2⟩
    · rw [clG_other true r (by simpa using hsp)] at h
      simp only [List.head?_cons, Option.some.injEq] at h
      exact h ▸ hh e rfl

/-- The collapser preserves absence of whitespace before hyphens. -/
theorem collapseGo_noSH :
    ∀ (l : Str) (f : Bool),
      l.Chain' (fun a b => ¬(isSp a = true ∧ b = '-')) →
      (collapseGo f l).Chain' (fun a b => ¬(isSp a = true ∧ b = '-'))
  | [], _, _ => by simp [collapseGo]
  | d :: r, f, hch => by
    rw [List.chain'_cons'] at hch
    obtain ⟨hpair, hch⟩ := hch
    by_cases hsp : isSp d = true
    · cases f with
      | true => rw [clG_sp_true hsp]; exact collapseGo_noSH r true hch
      | false =>
        rw [clG_sp_false hsp, List.chain'_cons']
        refine ⟨fun y hy => ?_, collapseGo_noSH r true hch⟩
        rintro ⟨-, hy2⟩
        exact collapseGo_true_nohyphen r hch
          (fun z hz hz2 => hpair z hz ⟨hsp, hz2⟩) y hy hy2
    · rw [clG_other f r (by simpa using hsp), List.chain'_cons']
      refine ⟨fun y _ => ?_, collapseGo_noSH r false hch⟩
      rintro ⟨hsd, -⟩
      exact hsp hsd

/-- Heads surviving `dropWhile` fail the predicate. -/
theorem dropWhile_head_not {p : Char → Bool} :
    ∀ (l : Str) (c : Char), (l.dropWhile p).head? = some c → p c = false
  | [], c, h => by simp at h
  | d :: r, c, h => by
    rw [List.dropWhile_cons] at h
    by_cases hp : p d = true
    · rw [if_pos hp] at h; exact dropWhile_head_not r c h
    · rw [if_neg hp] at h
      simp only [List.head?_cons, Option.some.injEq] at h
      exact h ▸ (by simpa using hp)

/-- `dropWhile` preserves chain conditions. -/
theorem chain'_dropWhile {R : Char → Char → Prop} {p : Char → Bool} :
    ∀ {l : Str}, l.Chain' R → (l.dropWhile p).Chain' R
  | [], h => h
  | d :: r, h => by
    rw [List.dropWhile_cons]
    by_cases hp : p d = true
    · rw [if_pos hp]
      exact chain'_dropWhile (List.chain'_cons'.mp h).2
    · rw [if_neg hp]; exact h

/-- `dropWhile` keeps the last element of its input when nonempty. -/
theorem getLast?_dropWhile {p : Char → Bool} :
    ∀ (m : Str), m.dropWhile p ≠ [] → (m.dropWhile p).getLast? = m.getLast?
  | [], h => absurd rfl h
  | d :: r, h => by
    rw [List.dropWhile_cons] at h ⊢
    by_cases hp : p d = true
    · rw [if_pos hp] at h ⊢
      have hr : r ≠ [] := by
        intro he; subst he; simp [List.dropWhile] at h
      rw [getLast?_dropWhile r h]
      cases r with
      | nil => exact absurd rfl hr
      | cons e r2 => rw [List.getLast?_cons_cons]
    · rw [if_neg hp] at h ⊢

/-- `dropWhile` only drops elements. -/
theorem mem_of_mem_dropWhile {p : Char → Bool} :
    ∀ {m : Str} {c : Char}, c ∈ m.dropWhile p → c ∈ m
  | [], c, h => h
  | d :: r, c, h => by
    rw [List.dropWhile_cons] at h
    by_cases hp : p d = true
    · rw [if_pos hp] at h
      exact List.mem_cons_of_mem d (mem_of_mem_dropWhile h)
    · rw [if_neg hp] at h; exact h

/-- Conjunction of two chain conditions. -/
theorem chain'_and {R S : Char → Char → Prop} :
    ∀ {l : Str}, l.Chain' R → l.Chain' S →
      l.Chain' (fun a b => R a b ∧ S a b)
  | [], _, _ => by simp
  | d :: r, h1, h2 => by
    rw [List.chain'_cons'] at h1 h2 ⊢
    exact ⟨fun y hy => ⟨h1.1 y hy, h2.1 y hy⟩, chain'_and h1.2 h2.2⟩

/-- Membership in `rsah` output implies membership in the input. -/
theorem rsah_subset {m : Str} {c : Char} (h : c ∈ rsah m) : c ∈ m := by
  unfold rsah at h
  rw [List.mem_reverse] at h
  have h2 := rmSpAfterHyphen_subset _ false c h
  rw [List.mem_reverse] at h2
  exact rmSpAfterHyphen_subset _ false c h2

/-- `rsah` output has no whitespace adjacent to a hyphen, for every
input. -/
theorem rsah_adj (m : Str) :
    (rsah m).Chain' (fun a b => ¬(a = '-' ∧ isSp b = true)) ∧
    (rsah m).Chain' (fun a b => ¬(isSp a = true ∧ b = '-')) := by
  unfold rsah
  have hy : (rmSpAfterHyphen false m).Chain'
      (fun a b => ¬(a = '-' ∧ isSp b = true)) := rmSpAfterHyphen_noHS m false
  have hy2 : ((rmSpAfterHyphen false m).reverse).Chain'
      (fun a b => ¬(isSp a = true ∧ b = '-')) := by
    rw [List.chain'_reverse]
    exact hy.imp fun a b h => by simp only [flip]; tauto
  have hz1 := rmSpAfterHyphen_noHS ((rmSpAfterHyphen false m).reverse) false
  have hz2 := rmSpAfterHyphen_noSH ((rmSpAfterHyphen false m).reverse) false hy2
  constructor
  · rw [List.chain'_reverse]
    exact hz2.imp fun a b h => by simp only [flip]; tauto
  · rw [List.chain'_reverse]
    exact hz1.imp fun a b h => by simp only [flip]; tauto

/-- Heads of stripped strings are non-whitespace. -/
theorem stripPy_head {m : Str} (c : Char)
    (h : (stripPy m).head? = some c) : isSp c = false := by
  unfold stripPy at h
  rw [List.head?_reverse] at h
  by_cases hy : (m.dropWhile isSp).reverse.dropWhile isSp = []
  · rw [hy] at h; simp at h
  · rw [getLast?_dropWhile _ hy, List.getLast?_reverse] at h
    exact dropWhile_head_not _ c h

/-- Last characters of stripped strings are non-whitespace. -/
theorem stripPy_last {m : Str} (c : Char)
    (h : (stripPy m).getLast? = some c) : isSp c = false := by
  unfold stripPy at h
  rw [List.getLast?_reverse] at h
  exact dropWhile_head_not _ c h

/-- Stripping only drops characters. -/
theorem mem_stripPy {m : Str} {c : Char} (h : c ∈ stripPy m) : c ∈ m := by
  unfold stripPy at h
  rw [List.mem_reverse] at h
  have h2 := mem_of_mem_dropWhile h
  rw [List.mem_reverse] at h2
  exact mem_of_mem_dropWhile h2

/-- Stripping preserves chain conditions. -/
theorem chain'_stripPy {R : Char → Char → Prop} {m : Str}
    (h : m.Chain' R) : (stripPy m).Chain' R := by
  unfold stripPy
  have h1 : (m.dropWhile isSp).Chain' R := chain'_dropWhile h
  have h2 : ((m.dropWhile isSp).reverse).Chain' (flip R) := by
    rw [List.chain'_reverse]; exact h1
  have h3 := chain'_dropWhile (p := isSp) h2
  rw [List.chain'_reverse]
  exact h3

/-- The standardization pipeline before the optional lowercasing. -/
def stage7 (l : Str) : Str :=
  stripPy (collapseWs (mapWs (rsah (mapDash ((replAll '_' ' ' l).flatMap nfkdChar)))))

/-- `standardizeStr` factors as `stage7` plus optional lowercasing. -/
theorem standardizeStr_eq_stage7 (l : Str) (low : Bool) :
    standardizeStr l low = if low then lowerPy (stage7 l) else stage7 l := rfl

/-- `stage7` output satisfies all canonical conditions except the
lowercasing clause, whenever the input has no `U+FF3F`. -/
theorem stage7_canon (l : Str) (hl : '＿' ∉ l) :
    (∀ c ∈ stage7 l,
      c ≠ '_' ∧ nfkdChar c = [c] ∧ (c ∈ dashChars → c = '-') ∧
        (isSp c = true → c = ' ')) ∧
    (stage7 l).Chain' adjOK ∧
    (∀ c, (stage7 l).head? = some c → isSp c = false) ∧
    (∀ c, (stage7 l).getLast? = some c → isSp c = false) := by
  unfold stage7
  have h1 : ∀ c ∈ replAll '_' ' ' l, c ≠ '_' ∧ c ≠ '＿' := by
    intro c hc
    simp only [replAll, List.mem_map] at hc
    obtain ⟨x, hx, rfl⟩ := hc
    by_cases hxe : x = '_'
    · rw [if_pos hxe]; exact ⟨by decide, by decide⟩
    · rw [if_neg hxe]; exact ⟨hxe, fun he => hl (he ▸ hx)⟩
  have h2 : ∀ c ∈ (replAll '_' ' ' l).flatMap nfkdChar,
      c ≠ '_' ∧ nfkdChar c = [c] := by
    intro c hc
    rw [List.mem_flatMap] at hc
    obtain ⟨x, hx, hcx⟩ := hc
    refine ⟨?_, nfkd_mem_stable hcx⟩
    rintro rfl
    rcases nfkd_mem_underscore hcx with h | h
    · exact (h1 x hx).1 h
    · exact (h1 x hx).2 h
  have h3 : ∀ c ∈ mapDash ((replAll '_' ' ' l).flatMap nfkdChar),
      c ≠ '_' ∧ nfkdChar c = [c] ∧ (c ∈ dashChars → c = '-') := by
    intro c hc
    simp only [mapDash, List.mem_map] at hc
    obtain ⟨x, hx, rfl⟩ := hc
    by_cases hxd : x ∈ dashChars
    · rw [if_pos hxd]
      exact ⟨by decide, by decide, fun _ => rfl⟩
    · rw [if_neg hxd]
      exact ⟨(h2 x hx).1, (h2 x hx).2, fun hh => absurd hh hxd⟩
  have h4 : ∀ c ∈ rsah (mapDash ((replAll '_' ' ' l).flatMap nfkdChar)),
      c ≠ '_' ∧ nfkdChar c = [c] ∧ (c ∈ dashChars → c = '-') :=
    fun c hc => h3 c (rsah_subset hc)
  obtain ⟨hc4a, hc4b⟩ := rsah_adj (mapDash ((replAll '_' ' ' l).flatMap nfkdChar))
  have gsp : ∀ c : Char, isSp (if c ∈ wsChars then ' ' else c) = isSp c := by
    intro c
    by_cases hw : c ∈ wsChars
    · rw [if_pos hw, wsChars_sp c hw]; decide
    · rw [if_neg hw]
  have ghy : ∀ c : Char,
      ((if c ∈ wsChars then ' ' else c) = '-') ↔ c = '-' := by
    intro c
    by_cases hw : c ∈ wsChars
    · rw [if_pos hw]
      constructor
      · intro h; exact absurd h (by decide)
      · rintro rfl; exact absurd hw (by decide)
    · rw [if_neg hw]
  have h5 : ∀ c ∈ mapWs (rsah (mapDash ((replAll '_' ' ' l).flatMap nfkdChar))),
      c ≠ '_' ∧ nfkdChar c = [c] ∧ (c ∈ dashChars → c = '-') := by
    intro c hc
    simp only [mapWs, List.mem_map] at hc
    obtain ⟨x, hx, rfl⟩ := hc
    by_cases hxw : x ∈ wsChars
    · rw [if_pos hxw]
      exact ⟨by decide, by decide, fun hh => absurd hh (by decide)⟩
    · rw [if_neg hxw]
      exact h4 x hx
  have hc5a : (mapWs (rsah (mapDash ((replAll '_' ' ' l).flatMap nfkdChar)))).Chain'
      (fun a b => ¬(a = '-' ∧ isSp b = true)) := by
    unfold mapWs
    rw [List.chain'_map]
    refine hc4a.imp fun a b h => ?_
    rintro ⟨ha, hb⟩
    exact h ⟨(ghy a).mp ha, (gsp b) ▸ hb⟩
  have hc5b : (mapWs (rsah (mapDash ((replAll '_' ' ' l).flatMap nfkdChar)))).Chain'
      (fun a b => ¬(isSp a = true ∧ b = '-')) := by
    unfold mapWs
    rw [List.chain'_map]
    refine hc4b.imp fun a b h => ?_
    rintro ⟨ha, hb⟩
    exact h ⟨(gsp a) ▸ ha, (ghy b).mp hb⟩
  have h6 : ∀ c ∈ collapseWs (mapWs (rsah (mapDash ((replAll '_' ' ' l).flatMap nfkdChar)))),
      c ≠ '_' ∧ nfkdChar c = [c] ∧ (c ∈ dashChars → c = '-') ∧
        (isSp c = true → c = ' ') := by
    intro c hc
    unfold collapseWs at hc
    have hsp := collapseGo_sp _ false c hc
    rcases collapseGo_mem _ false c hc with rfl | hc2
    · exact ⟨by decide, by decide, fun hh => absurd hh (by decide), fun _ => rfl⟩
    · exact ⟨(h5 c hc2).1, (h5 c hc2).2.1, (h5 c hc2).2.2, hsp⟩
  have hc6 : (collapseWs (mapWs (rsah (mapDash ((replAll '_' ' ' l).flatMap nfkdChar))))).Chain' adjOK := by
    unfold collapseWs
    have a1 := collapseGo_noSpSp (mapWs (rsah (mapDash ((replAll '_' ' ' l).flatMap nfkdChar)))) false
    have a2 := collapseGo_noHS (mapWs (rsah (mapDash ((replAll '_' ' ' l).flatMap nfkdChar)))) false hc5a
    have a3 := collapseGo_noSH (mapWs (rsah (mapDash ((replAll '_' ' ' l).flatMap nfkdChar)))) false hc5b
    exact (chain'_and a1 (chain'_and a2 a3)).imp
      fun a b h => ⟨h.1, h.2.1, h.2.2⟩
  refine ⟨fun c hc => h6 c (mem_stripPy hc), chain'_stripPy hc6,
    fun c hc => stripPy_head c hc, fun c hc => stripPy_last c hc⟩

/-- `standardizeStr` always lands in canonical form when the input has
no `U+FF3F` (the one code point the model decomposes to an
underscore). -/
theorem standardizeStr_canon (low : Bool) {l : Str} (hl : '＿' ∉ l) :
    Canon low (standardizeStr l low) := by
  obtain ⟨hch, hadj, hhd, hlt⟩ := stage7_canon l hl
  rw [standardizeStr_eq_stage7]
  cases low with
  | false =>
    rw [if_neg (by simp)]
    exact ⟨fun c hc => ⟨(hch c hc).1, (hch c hc).2.1, (hch c hc).2.2.1,
      (hch c hc).2.2.2, fun h => Bool.noConfusion h⟩, hadj, hhd, hlt⟩
  | true =>
    rw [if_pos rfl]
    refine ⟨?_, ?_, ?_, ?_⟩
    · intro c hc
      simp only [lowerPy, List.mem_map] at hc
      obtain ⟨x, hx, rfl⟩ := hc
      obtain ⟨hx1, hx2, hx3, hx4⟩ := hch x hx
      refine ⟨pyLower_underscore hx1, pyLower_nfkd hx2, pyLower_dash hx3,
        ?_, fun _ => pyLower_idem x⟩
      intro hsp
      rw [pyLower_sp] at hsp
      rw [hx4 hsp]
      decide
    · unfold lowerPy
      rw [List.chain'_map]
      refine hadj.imp fun a b h => ?_
      obtain ⟨h1, h2, h3⟩ := h
      refine ⟨?_, ?_, ?_⟩
      · rw [pyLower_sp, pyLower_sp]; exact h1
      · rw [pyLower_sp b]
        rintro ⟨ha, hb⟩
        exact h2 ⟨(pyLower_hyphen a).mp ha, hb⟩
      · rw [pyLower_sp a]
        rintro ⟨ha, hb⟩
        exact h3 ⟨ha, (pyLower_hyphen b).mp hb⟩
    · intro c hc
      unfold lowerPy at hc
      rw [List.head?_map] at hc
      cases hh : (stage7 l).head? with
      | none => rw [hh] at hc; simp at hc
      | some d =>
        rw [hh] at hc
        simp only [Option.map_some', Option.some.injEq] at hc
        rw [← hc, pyLower_sp]
        exact hhd d hh
    · intro c hc
      unfold lowerPy at hc
      rw [List.getLast?_map] at hc
      cases hh : (stage7 l).getLast? with
      | none => rw [hh] at hc; simp at hc
      | some d =>
        rw [hh] at hc
        simp only [Option.map_some', Option.some.injEq] at hc
        rw [← hc, pyLower_sp]
        exact hlt d hh

/-! ### Claim C5 -/

/-- Claim C5, counterexample: `standardize` is not idempotent as
stated — on the string `"a＿b"` (with the fullwidth low line `U+FF3F`,
whose NFKD decomposition is the plain underscore `_`) the first pass
produces `"a_b"`, and the second pass turns that underscore into a
space, so the results differ. -/
theorem C5_standardize_not_idempotent_cex :
    standardize (.str ('a' :: '＿' :: ['b'])) true = ('a' :: '_' :: ['b']) ∧
    standardize (.str (standardize (.str ('a' :: '＿' :: ['b'])) true)) true ≠
      standardize (.str ('a' :: '＿' :: ['b'])) true := by
  constructor
  · decide
  · decide

/-- Claim C5, amended: `standardize` is deterministic (it is a pure
function of its input pair), maps every non-string input to the empty
string without raising, and is idempotent on every string containing
no character whose NFKD decomposition introduces an underscore
(`U+FF3F` is the only such code point in the model); on strings
containing `U+FF3F` idempotence fails, as the counterexample shows. -/
theorem C5_standardize_idem (s : Str) (b : Bool) (h : '＿' ∉ s) :
    standardize (.str (standardize (.str s) b)) b = standardize (.str s) b ∧
    standardize .nonStr b = [] :=
  ⟨standardizeStr_fix (standardizeStr_canon b h), rfl⟩

/-- Witness for the amended claim C5 at a concrete input. -/
theorem C5_standardize_idem_witness :
    ('＿' ∉ (' ' :: 'J' :: 'a' :: 'n' :: ' ' :: ' ' :: 'K' :: 'o' :: 'w' :: 'a' :: 'l' :: 's' :: 'k' :: 'i' :: [' '])) ∧
    (standardize (.str (standardize (.str (' ' :: 'J' :: 'a' :: 'n' :: ' ' :: ' ' :: 'K' :: 'o' :: 'w' :: 'a' :: 'l' :: 's' :: 'k' :: 'i' :: [' '])) true)) true =
      standardize (.str (' ' :: 'J' :: 'a' :: 'n' :: ' ' :: ' ' :: 'K' :: 'o' :: 'w' :: 'a' :: 'l' :: 's' :: 'k' :: 'i' :: [' '])) true ∧
    standardize .nonStr true = []) :=
  ⟨by decide, C5_standardize_idem
    (' ' :: 'J' :: 'a' :: 'n' :: ' ' :: ' ' :: 'K' :: 'o' :: 'w' :: 'a' :: 'l' :: 's' :: 'k' :: 'i' :: [' ']) true (by decide)⟩

/-! ### Python dictionaries as association lists -/

/-- Python dict assignment `d[k] = v`: replace the binding in place,
or append a new one. -/
def dinsert {κ α : Type} [DecidableEq κ] (k : κ) (v : α) :
    List (κ × α) → List (κ × α)
  | [] => [(k, v)]
  | (k2, v2) :: t => if k2 = k then (k2, v) :: t else (k2, v2) :: dinsert k v t

/-- Python `d.get(k)`. -/
def dlookup {κ α : Type} [DecidableEq κ] (k : κ) (l : List (κ × α)) : Option α :=
  (l.find? (fun e => decide (e.1 = k))).map (fun e => e.2)

/-- Lookup after insertion: assignment replaces any earlier binding. -/
theorem dlookup_dinsert {κ α : Type} [DecidableEq κ] (k m : κ) (v : α) :
    ∀ (l : List (κ × α)),
      dlookup m (dinsert k v l) = if k = m then some v else dlookup m l
  | [] => by
    simp only [dinsert, dlookup, List.find?]
    by_cases h : k = m
    · subst h; simp
    · rw [if_neg h]
      have : decide (k = m) = false := by simpa using h
      simp [this]
  | (k2, v2) :: t => by
    simp only [dinsert]
    by_cases h2 : k2 = k
    · subst h2
      by_cases h : k2 = m
      · subst h; simp [dlookup, List.find?]
      · have hd : decide (k2 = m) = false := by simpa using h
        rw [if_neg h]
        simp [dlookup, List.find?, hd]
    · rw [if_neg h2]
      by_cases h : k2 = m
      · subst h
        have hkm : ¬ k = k2 := fun he => h2 he.symm
        rw [if_neg hkm]
        simp [dlookup, List.find?]
      · have hd : decide (k2 = m) = false := by simpa using h
        simp only [dlookup, List.find?, hd]
        have := dlookup_dinsert k m v t
        simpa [dlookup] using this

/-! ### AuthorLookup (SONaa_Tools.py lines 79-165) -/

/-- Value stored in `by_aid`. -/
structure AuthorInfo where
  fullname : Str
  std_name : Str
  orcid : Option Str
  idx : Nat
deriving DecidableEq, Inhabited

/-- The four author lookup tables. -/
structure AuthorLookup where
  by_name : List (Str × Str)
  by_aid : List (Str × AuthorInfo)
  by_orcid : List (Str × Str)
  by_alt_name : List (Str × Str)
deriving DecidableEq, Inhabited

/-- `AuthorLookup.add_author` (lines 95-115): unconditional assignment
into `by_name` and `by_aid`; into `by_orcid` when the ORCID is present
and truthy. -/
def AuthorLookup.add_author (lk : AuthorLookup) (aid std_name fullname : Str)
    (orcid : Option Str) (idx : Nat) : AuthorLookup :=
  let lk2 := { lk with
    by_name := dinsert std_name aid lk.by_name,
    by_aid := dinsert aid ⟨fullname, std_name, orcid, idx⟩ lk.by_aid }
  match orcid with
  | some o => if o ≠ [] then { lk2 with by_orcid := dinsert o aid lk2.by_orcid } else lk2
  | none => lk2

/-- `AuthorLookup.add_alternative_name` (lines 117-127): standardize
and assign unconditionally into `by_alt_name`; non-strings are
ignored. -/
def AuthorLookup.add_alternative_name (lk : AuthorLookup) (aid : Str)
    (alt_name : PyVal) : AuthorLookup :=
  match alt_name with
  | .str s =>
      { lk with by_alt_name := dinsert (standardizeStr s true) aid lk.by_alt_name }
  | .nonStr => lk

/-- `AuthorLookup.lookup_by_name` (lines 129-140). -/
def AuthorLookup.lookup_by_name (lk : AuthorLookup) (name : Str) : Option Str :=
  dlookup (standardizeStr name true) lk.by_name

/-- `AuthorLookup.lookup_by_orcid` (lines 142-152). -/
def AuthorLookup.lookup_by_orcid (lk : AuthorLookup) (orcid : Str) : Option Str :=
  dlookup orcid lk.by_orcid

/-- `AuthorLookup.lookup_by_alt_name` (lines 154-165). -/
def AuthorLookup.lookup_by_alt_name (lk : AuthorLookup) (name : Str) : Option Str :=
  dlookup (standardizeStr name true) lk.by_alt_name

/-! ### NameMatcher (SONaa_Tools.py lines 167-487) -/

/-- Python `str.split()`: split on whitespace runs, no empty parts.
The accumulator holds the current word reversed. -/
def splitWsAux : Str → Str → List Str
  | [], cur => if cur = [] then [] else [cur.reverse]
  | c :: r, cur =>
    if isSp c then
      if cur = [] then splitWsAux r []
      else cur.reverse :: splitWsAux r []
    else splitWsAux r (c :: cur)

/-- Python `str.split()`. -/
def splitWs (l : Str) : List Str := splitWsAux l []

/-- Python `str.split(sep)` for a one-character separator (keeps empty
parts). -/
def splitOn (c : Char) : Str → List Str
  | [] => [[]]
  | d :: r =>
    if d = c then [] :: splitOn c r
    else
      match splitOn c r with
      | h :: t => (d :: h) :: t
      | [] => [[d]]

/-- Python `' '.join(parts)`. -/
def joinSpace (l : List Str) : Str := List.intercalate [' '] l

/-- Python prefix test, used for the substring test. -/
def prefOf : Str → Str → Bool
  | [], _ => true
  | _ :: _, [] => false
  | a :: as2, b :: bs => a = b && prefOf as2 bs

/-- Python `needle in hay` on strings (contiguous substring). -/
def isSubstr (n : Str) : Str → Bool
  | [] => decide (n = [])
  | c :: r => prefOf n (c :: r) || isSubstr n r

/-- Components extracted by `NameMatcher.extract_name_components`
(lines 184-202): `(first, last, middle)`. -/
def extract_name_components (name : Str) : Str × Str × List Str :=
  match splitWs name with
  | [] => ([], [], [])
  | [p] => (p, [], [])
  | [p, q] => (p, q, [])
  | p :: rest => (p, rest.getLastD [], rest.dropLast)

/-- Result of `NameMatcher.extract_complex_name`. -/
structure NameParts where
  first : Str
  middle : List Str
  last : Str
  last_parts : List Str
  all_parts : List Str
deriving DecidableEq, Inhabited

/-- The compound-surname connector words (line 232). -/
def compound_indicators : List Str :=
  ["van".data, "von".data, "der".data, "den".data, "de".data,
   "la".data, "le".data, "di".data, "da".data]

/-- `NameMatcher.extract_complex_name` (lines 204-238): basic
components plus hyphen-split surname parts plus compound-surname
candidates synthesized at every connector word in the middle names. -/
def extract_complex_name (name : Str) : NameParts :=
  let b := extract_name_components name
  let first := b.1
  let last := b.2.1
  let middle := b.2.2
  let base_parts := if '-' ∈ last then splitOn '-' last ++ [last] else [last]
  let compounds :=
    (middle.enum.filter
      (fun p => decide (lowerPy p.2 ∈ compound_indicators))).map
      (fun p => joinSpace (middle.drop p.1 ++ [last]))
  { first := first, middle := middle, last := last,
    last_parts := base_parts ++ compounds,
    all_parts := splitWs name }

/-- Number of positions (within the shorter length) where two strings
agree. -/
def countAgree (a b : Str) : Nat :=
  (a.zip b).countP (fun p => decide (p.1 = p.2))

/-- Score of the outer surname-parts loop (lines 460-471): a part
found verbatim among the candidate parts adds 30 and stops the loop;
otherwise each part contained in (or containing, length at least 4) a
candidate part adds 20 and the loop continues. -/
def lastPartsScore (dbp : List Str) : List Str → Nat
  | [] => 0
  | p :: rest =>
    if p ∈ dbp then 30
    else
      (if dbp.any (fun d =>
          (decide (4 ≤ p.length) && isSubstr p d) ||
          (decide (4 ≤ d.length) && isSubstr d p)) then 20 else 0) +
        lastPartsScore dbp rest

/-- `NameMatcher._calculate_match_score` (lines 433-487). -/
def calculate_match_score (np dp : NameParts) : Nat :=
  let firstScore : Nat :=
    if np.first = dp.first then 40
    else if 3 ≤ np.first.length ∧ 3 ≤ dp.first.length then
      min 20 (5 * countAgree np.first dp.first)
    else 0
  let lastScore : Nat :=
    if np.last = dp.last then 60
    else
      lastPartsScore dp.last_parts np.last_parts +
      (if (4 ≤ np.last.length ∧ isSubstr np.last dp.last = true) ∨
          (4 ≤ dp.last.length ∧ isSubstr dp.last np.last = true) then 20
       else 0) +
      (if '-' ∈ np.last ∧ '-' ∈ dp.last then
        min 30 (15 * ((splitOn '-' np.last).countP
          (fun p => (splitOn '-' dp.last).any (fun d => decide (p = d)))))
       else 0)
  firstScore + lastScore

/-- One row of the authors DataFrame. -/
structure AuthorRow where
  Aid : Str
  fullname : Str
  std_fullname : Str
  alternative_names : Option (List Str)
deriving DecidableEq, Inhabited

/-- The mutable state a `NameMatcher` reaches through: the lookup
tables and the authors table (the match cache is passed separately). -/
structure MatcherState where
  lookup : AuthorLookup
  authors : List AuthorRow
deriving DecidableEq, Inhabited

/-- `NameMatcher.add_alternative_name` (lines 240-270): append to the
author row's alternative-name list and assign into the alt-name lookup
unless the raw name is empty or already recorded for this author. -/
def add_alternative_name_m (st : MatcherState) (author_idx : Nat)
    (new_alt : Str) : Bool × MatcherState :=
  if new_alt = [] then (false, st)
  else
    let row := st.authors.getD author_idx default
    let alt_names := row.alternative_names.getD []
    if new_alt ∈ alt_names then (false, st)
    else
      let row2 := { row with alternative_names := some (alt_names ++ [new_alt]) }
      (true,
       { lookup := st.lookup.add_alternative_name row.Aid (.str new_alt),
         authors := st.authors.set author_idx row2 })

/-- The character of `x.split()[-1][0]` in the candidate-pruning mask
(lines 396-398), or `none` for the empty string the lambda returns. -/
def lastInitial (s : Str) : Option Char := ((splitWs s).getLastD []).head?

/-- The candidate-scanning loop of `_match_by_components`
(lines 401-416), folding the running best match and score. -/
def scanCandidates (np : NameParts) :
    List (Nat × AuthorRow) → Option (Str × Str × Nat) × Nat →
      Option (Str × Str × Nat) × Nat
  | [], acc => acc
  | (idx, row) :: rest, (best, ms) =>
    let dbp := extract_complex_name row.std_fullname
    if np.first = [] ∨ dbp.first = [] ∨ np.first.head? ≠ dbp.first.head? then
      scanCandidates np rest (best, ms)
    else
      let sc := calculate_match_score np dbp
      if ms < sc ∧ 50 ≤ sc then
        scanCandidates np rest (some (row.Aid, row.fullname, idx), sc)
      else scanCandidates np rest (best, ms)

/-- A match result: `(author_id, name_in_db, is_alternative)`. -/
abbrev MatchResult := Option Str × Option Str × Bool

/-- `NameMatcher._match_by_components` (lines 367-431). -/
def match_by_components (st : MatcherState) (name : Str)
    (alt_name : Option Str) : MatchResult × MatcherState :=
  let std_name := standardizeStr name true
  let np := extract_complex_name std_name
  if np.first = [] ∧ np.last = [] then ((none, none, false), st)
  else
    let cands :=
      match np.last.head? with
      | some ch =>
        if 100 < st.authors.length then
          st.authors.enum.filter
            (fun p => decide (lastInitial p.2.std_fullname = some ch))
        else st.authors.enum
      | none => st.authors.enum
    match scanCandidates np cands (none, 0) with
    | (some (aid, fullname, author_idx), _) =>
      let st1 := (add_alternative_name_m st author_idx name).2
      let st2 :=
        match alt_name with
        | some a => if a ≠ [] then (add_alternative_name_m st1 author_idx a).2 else st1
        | none => st1
      ((some aid, some fullname, true), st2)
    | (none, _) => ((none, none, false), st)

/-- The match cache keyed by the raw `(name, orcid)` pair. -/
abbrev Cache := List ((Option Str × Option Str) × MatchResult)

/-- The parenthetical-extraction slice
`name[name.find('(')+1 : name.find(')')]` (line 300). -/
def parenSlice (s : Str) : Str :=
  let i := (s.findIdx? (fun c => c = '(')).getD 0
  let j := (s.findIdx? (fun c => c = ')')).getD 0
  (s.drop (i + 1)).take (j - (i + 1))

/-- The cleaned name: `name.strip() if isinstance(name, str) else ""`
(line 293). -/
def name1Of (name0 : Option Str) : Str :=
  match name0 with
  | some s => stripPy s
  | none => []

/-- The primary name after parenthetical extraction (lines 297-301). -/
def mainName (name0 : Option Str) : Str :=
  let n := name1Of name0
  if '(' ∈ n ∧ ')' ∈ n then
    stripPy (n.takeWhile (fun c => decide (c ≠ '(')))
  else n

/-- The parenthetical alternative-name candidate (lines 297-301). -/
def parenAlt (name0 : Option Str) : Option Str :=
  let n := name1Of name0
  if '(' ∈ n ∧ ')' ∈ n then some (stripPy (parenSlice n)) else none

/-- The identifier strategy entry: strip the ORCID when it is a
string, and look it up when truthy (lines 294 and 307-308). -/
def orcidHitOf (st : MatcherState) (orcid0 : Option Str) : Option Str :=
  match orcid0 with
  | some s => if stripPy s ≠ [] then st.lookup.lookup_by_orcid (stripPy s) else none
  | none => none

/-- `NameMatcher.match_name` (lines 272-365): cache hit, input
cleaning, parenthetical extraction, then the ORCID / exact name /
alternative name / component strategies in order, each storing its
result in the cache. -/
def match_name (st : MatcherState) (name0 orcid0 : Option Str)
    (cache : Cache) : MatchResult × MatcherState × Cache :=
  let key := (name0, orcid0)
  match dlookup key cache with
  | some r => (r, st, cache)
  | none =>
    let name2 := mainName name0
    let alt_name := parenAlt name0
    let std_name := standardizeStr name2 true
    match orcidHitOf st orcid0 with
    | some aid =>
      let info := (dlookup aid st.lookup.by_aid).getD default
      let is_alt := decide (std_name ≠ standardizeStr info.fullname true)
      let st1 :=
        if is_alt ∧ name2 ≠ info.fullname then
          (add_alternative_name_m st info.idx name2).2
        else st
      let st2 :=
        match alt_name with
        | some a => if a ≠ [] then (add_alternative_name_m st1 info.idx a).2 else st1
        | none => st1
      let result : MatchResult := (some aid, some info.fullname, is_alt)
      (result, st2, dinsert key result cache)
    | none =>
      match st.lookup.lookup_by_name std_name with
      | some aid =>
        let info := (dlookup aid st.lookup.by_aid).getD default
        let st1 :=
          match alt_name with
          | some a => if a ≠ [] then (add_alternative_name_m st info.idx a).2 else st
          | none => st
        let result : MatchResult := (some aid, some info.fullname, false)
        (result, st1, dinsert key result cache)
      | none =>
        match st.lookup.lookup_by_alt_name std_name with
        | some aid =>
          let info := (dlookup aid st.lookup.by_aid).getD default
          let st1 :=
            match alt_name with
            | some a => if a ≠ [] then (add_alternative_name_m st info.idx a).2 else st
            | none => st
          let result : MatchResult := (some aid, some info.fullname, true)
          (result, st1, dinsert key result cache)
        | none =>
          let rs := match_by_components st name2 alt_name
          (rs.1, rs.2, dinsert key rs.1 cache)

/-! ### Claim C7 -/

/-- Every exit of `match_name` stores its result in the cache under
the raw `(name, orcid)` key. -/
theorem match_name_caches (st : MatcherState) (n o : Option Str) (c : Cache) :
    dlookup (n, o) (match_name st n o c).2.2 = some (match_name st n o c).1 := by
  unfold match_name
  cases hc : dlookup (n, o) c with
  | some r => simp [hc]
  | none =>
    simp only [hc]
    split
    · simp [dlookup_dinsert]
    · split
      · simp [dlookup_dinsert]
      · split <;> simp [dlookup_dinsert]

/-- Claim C7: calling `match_name` a second time with the same
`(name, identifier)` pair and the cache produced by the first call
returns the identical result and performs no further mutation — the
cache hit short-circuits all matching work, returning the matcher
state and the cache exactly as they were. -/
theorem C7_match_name_cache_fixpoint (st : MatcherState) (n o : Option Str)
    (c : Cache) :
    match_name (match_name st n o c).2.1 n o (match_name st n o c).2.2 =
      ((match_name st n o c).1, (match_name st n o c).2.1,
        (match_name st n o c).2.2) := by
  have h := match_name_caches st n o c
  conv_lhs => rw [match_name.eq_def]
  simp only [h]

/-! ### Claim C8 -/

/-- Length of the common prefix of two strings — the quantity claim C8
says the first-name score is based on (spec-side definition, for
comparison with the code's positional-agreement count). -/
def commonPrefixLen : Str → Str → Nat
  | a :: as2, b :: bs => if a = b then commonPrefixLen as2 bs + 1 else 0
  | _, _ => 0

/-- Claim C8, counterexample: on first names `abc` vs `axc` (equal
surnames absent, both scoring zero), the code awards 5 points per
agreeing position anywhere (positions 0 and 2 agree, 10 points), not
5 points per matching leading character (common prefix 1, which the
claim says gives 5 points). -/
theorem C8_first_name_prefix_cex :
    calculate_match_score (extract_complex_name ('a' :: 'b' :: 'c' :: ' ' :: 'z' :: 'z' :: ['z']))
        (extract_complex_name ('a' :: 'x' :: 'c' :: ' ' :: 'q' :: 'q' :: ['q'])) = 10 ∧
    min 20 (5 * commonPrefixLen ('a' :: 'b' :: ['c']) ('a' :: 'x' :: ['c'])) = 5 ∧
    calculate_match_score (extract_complex_name ('a' :: 'b' :: 'c' :: ' ' :: 'z' :: 'z' :: ['z']))
        (extract_complex_name ('a' :: 'x' :: 'c' :: ' ' :: 'q' :: 'q' :: ['q'])) ≠
      min 20 (5 * commonPrefixLen ('a' :: 'b' :: ['c']) ('a' :: 'x' :: ['c'])) := by
  refine ⟨by decide, by decide, by decide⟩

/-- Claim C8, amended: in component-scored matching, when the two
first names are unequal and both at least 3 characters long, the
first-name contribution is 5 points per position (within the shorter
length) at which the two first names agree — agreement at any
position counts, not only the leading run — capped at 20; an exact
first-name match contributes exactly 40.  Stated with equal last
names, whose contribution is exactly 60, so the first-name
contribution is isolated. -/
theorem C8_first_name_scoring (np dp : NameParts) (hl : np.last = dp.last) :
    (np.first = dp.first → calculate_match_score np dp = 100) ∧
    (np.first ≠ dp.first → 3 ≤ np.first.length → 3 ≤ dp.first.length →
      calculate_match_score np dp =
        60 + min 20 (5 * countAgree np.first dp.first)) := by
  constructor
  · intro h
    unfold calculate_match_score
    rw [if_pos h, if_pos hl]
  · intro h h3 h4
    unfold calculate_match_score
    rw [if_neg h, if_pos ⟨h3, h4⟩, if_pos hl]
    show min 20 (5 * countAgree np.first dp.first) + 60 =
      60 + min 20 (5 * countAgree np.first dp.first)
    exact Nat.add_comm _ _

/-- Witness for the amended claim C8 at concrete unequal first
names. -/
theorem C8_first_name_scoring_witness :
    (extract_complex_name ('a' :: 'b' :: 'c' :: ' ' :: 'n' :: 'o' :: 'w' :: 'a' :: ['k'])).last =
      (extract_complex_name ('a' :: 'x' :: 'c' :: ' ' :: 'n' :: 'o' :: 'w' :: 'a' :: ['k'])).last ∧
    calculate_match_score
        (extract_complex_name ('a' :: 'b' :: 'c' :: ' ' :: 'n' :: 'o' :: 'w' :: 'a' :: ['k']))
        (extract_complex_name ('a' :: 'x' :: 'c' :: ' ' :: 'n' :: 'o' :: 'w' :: 'a' :: ['k'])) =
      60 + min 20 (5 * countAgree
        (extract_complex_name ('a' :: 'b' :: 'c' :: ' ' :: 'n' :: 'o' :: 'w' :: 'a' :: ['k'])).first
        (extract_complex_name ('a' :: 'x' :: 'c' :: ' ' :: 'n' :: 'o' :: 'w' :: 'a' :: ['k'])).first) :=
  ⟨by decide,
   (C8_first_name_scoring
      (extract_complex_name ('a' :: 'b' :: 'c' :: ' ' :: 'n' :: 'o' :: 'w' :: 'a' :: ['k']))
      (extract_complex_name ('a' :: 'x' :: 'c' :: ' ' :: 'n' :: 'o' :: 'w' :: 'a' :: ['k']))
      (by decide)).2 (by decide) (by decide) (by decide)⟩

/-! ### Claim C4 -/

/-- Claim C4, counterexample: when a second author claims an
already-mapped standardized name, `AuthorLookup.add_author` silently
overwrites the earlier mapping — the name maps to the second author
id afterwards, so the earlier mapping is not kept and no warning
path exists in the code. -/
theorem C4_first_writer_cex :
    dlookup ('a' :: 'n' :: 'n' :: 'a' :: [])
      ((AuthorLookup.add_author
          (AuthorLookup.add_author ⟨[], [], [], []⟩
            ('a' :: ['1']) ('a' :: 'n' :: 'n' :: 'a' :: []) ('A' :: []) none 0)
          ('a' :: ['2']) ('a' :: 'n' :: 'n' :: 'a' :: []) ('A' :: []) none 1).by_name) =
      some ('a' :: ['2']) ∧
    some ('a' :: ['2']) ≠ some ('a' :: ['1']) := by
  refine ⟨by decide, by decide⟩

/-- Claim C4, amended: each standardized full name and each
standardized alternative name maps to at most one author id at any
time (the lookups are dictionaries), but a collision is resolved by
last-writer-wins, silently: `add_author` makes the standardized name
map to the new author id regardless of any earlier owner, leaving all
other names untouched, and `add_alternative_name` does the same in the
alternative-name index — no first-writer-wins rule and no logged
warning exist. -/
theorem C4_last_writer_wins (lk : AuthorLookup) (aid sn fn : Str)
    (o : Option Str) (i : Nat) (m : Str) (aid2 alt : Str) :
    dlookup m (lk.add_author aid sn fn o i).by_name =
      (if sn = m then some aid else dlookup m lk.by_name) ∧
    dlookup m (lk.add_alternative_name aid2 (.str alt)).by_alt_name =
      (if standardizeStr alt true = m then some aid2
       else dlookup m lk.by_alt_name) := by
  constructor
  · have hby : (lk.add_author aid sn fn o i).by_name = dinsert sn aid lk.by_name := by
      unfold AuthorLookup.add_author
      cases o with
      | none => rfl
      | some ov => by_cases h : ov ≠ [] <;> simp [h]
    rw [hby]
    exact dlookup_dinsert sn m aid lk.by_name
  · unfold AuthorLookup.add_alternative_name
    exact dlookup_dinsert _ m aid2 lk.by_alt_name

/-! ### Claim C10 -/

/-- A one-author fixture: ORCID `0-1` resolves to author `a1`. -/
def lkC10 : AuthorLookup :=
  AuthorLookup.add_author ⟨[], [], [], []⟩ ('a' :: ['1'])
    ('j' :: 'a' :: 'n' :: ' ' :: 'k' :: 'o' :: 'w' :: 'a' :: 'l' :: 's' :: 'k' :: ['i'])
    ('J' :: 'a' :: 'n' :: ' ' :: 'K' :: 'o' :: 'w' :: 'a' :: 'l' :: 's' :: 'k' :: ['i'])
    (some ('0' :: '-' :: ['1'])) 0

/-- The matcher state over the one-author fixture. -/
def stC10 : MatcherState :=
  ⟨lkC10,
   [⟨('a' :: ['1']),
     ('J' :: 'a' :: 'n' :: ' ' :: 'K' :: 'o' :: 'w' :: 'a' :: 'l' :: 's' :: 'k' :: ['i']),
     ('j' :: 'a' :: 'n' :: ' ' :: 'k' :: 'o' :: 'w' :: 'a' :: 'l' :: 's' :: 'k' :: ['i']),
     none⟩]⟩

/-- Claim C10, counterexample: called with a non-string name (`None`)
but a known external identifier, `match_name` does not return the
no-match result — the identifier strategy still fires and returns the
resolved author, marked as an alternative-identity match. -/
theorem C10_none_name_cex :
    (match_name stC10 none (some ('0' :: '-' :: ['1'])) []).1 =
      (some ('a' :: ['1']),
       some ('J' :: 'a' :: 'n' :: ' ' :: 'K' :: 'o' :: 'w' :: 'a' :: 'l' :: 's' :: 'k' :: ['i']),
       true) ∧
    (match_name stC10 none (some ('0' :: '-' :: ['1'])) []).1 ≠
      (none, none, false) := by
  refine ⟨by decide, by decide⟩

/-- The identifier strategy yields nothing when the identifier is
absent, strips to empty, or is unknown. -/
theorem orcidHitOf_none (st : MatcherState) (orcid0 : Option Str)
    (ho : ∀ o, orcid0 = some o →
      stripPy o = [] ∨ st.lookup.lookup_by_orcid (stripPy o) = none) :
    orcidHitOf st orcid0 = none := by
  cases orcid0 with
  | none => rfl
  | some o =>
    unfold orcidHitOf
    rcases ho o rfl with h | h
    · simp [h]
    · by_cases he : stripPy o = []
      · simp [he]
      · simp [he, h]

/-- Claim C10, amended: `match_name` is total at the public interface
— on a non-string name it substitutes the empty string and never
raises — and it returns the no-match result `(None, None, False)`
with the matcher state unchanged (only the cache gains the memoized
no-match entry) whenever, in addition, the supplied identifier is
absent, empty after stripping, or unknown, the (cleaned) name
standardizes to the empty string, and the empty string is a key of
neither name index.  With a known identifier the identifier strategy
returns its author instead, as the counterexample shows. -/
theorem C10_empty_name_no_match (st : MatcherState) (name0 orcid0 : Option Str)
    (c : Cache)
    (hc : dlookup (name0, orcid0) c = none)
    (ho : ∀ o, orcid0 = some o →
      stripPy o = [] ∨ st.lookup.lookup_by_orcid (stripPy o) = none)
    (hn : standardizeStr (mainName name0) true = [])
    (hby : dlookup ([] : Str) st.lookup.by_name = none)
    (halt : dlookup ([] : Str) st.lookup.by_alt_name = none) :
    match_name st name0 orcid0 c =
      ((none, none, false), st,
        dinsert (name0, orcid0) (none, none, false) c) := by
  unfold match_name
  simp only [hc]
  have horcid : orcidHitOf st orcid0 = none := orcidHitOf_none st orcid0 ho
  have hlkname : st.lookup.lookup_by_name (standardizeStr (mainName name0) true) = none := by
    rw [hn]
    unfold AuthorLookup.lookup_by_name
    have : standardizeStr ([] : Str) true = [] := rfl
    rw [this]
    exact hby
  have hlkalt : st.lookup.lookup_by_alt_name (standardizeStr (mainName name0) true) = none := by
    rw [hn]
    unfold AuthorLookup.lookup_by_alt_name
    have : standardizeStr ([] : Str) true = [] := rfl
    rw [this]
    exact halt
  have hcomp : match_by_components st (mainName name0) (parenAlt name0) =
      ((none, none, false), st) := by
    unfold match_by_components
    rw [hn]
    rfl
  simp only [horcid, hlkname, hlkalt, hcomp]

/-- Witness for the amended claim C10: the fixture state, a `None`
name, and no identifier. -/
theorem C10_empty_name_no_match_witness :
    (dlookup ((none : Option Str), (none : Option Str)) ([] : Cache) = none) ∧
    (standardizeStr (mainName none) true = []) ∧
    match_name stC10 none none [] =
      ((none, none, false), stC10,
        dinsert ((none : Option Str), none) (none, none, false) []) :=
  ⟨by decide, by decide,
   C10_empty_name_no_match stC10 none none []
     (by decide) (fun o ho => by cases ho) (by decide) (by decide) (by decide)⟩

/-! ### Articles (SONaa.py) -/

/-- A date cell: an integer year or a raw string. -/
inductive DateVal where
  | num (n : Int)
  | strv (s : Str)
deriving DecidableEq

/-- One row of the articles DataFrame, with the columns that
`merge_articles`, `clean` and the duplicate-identification functions
touch.  `none` models both Python `None` and `NaN`; for `authors`,
`tracking` and `old_dois` it models any non-list cell. -/
structure Article where
  articleID : Str
  doi : Option Str
  title : Option Str
  date : Option DateVal
  journal : Option Str
  authors : Option (List Str)
  pdf_url : Option Str
  landing_page_url : Option Str
  oa_url : Option Str
  tracking : Option (List Str)
  old_dois : Option (List Str)
deriving DecidableEq, Inhabited

/-- Remove every (leftmost, non-overlapping) occurrence of `pat`; the
counter skips the remainder of a just-matched occurrence, keeping the
recursion structural. -/
def removeSubGo (pat : Str) : Nat → Str → Str
  | _ + 1, [] => []
  | k + 1, _ :: r => removeSubGo pat k r
  | 0, [] => []
  | 0, c :: r =>
    if prefOf pat (c :: r) && !pat.isEmpty then
      removeSubGo pat (pat.length - 1) r
    else c :: removeSubGo pat 0 r

/-- Python `s.replace(pat, '')`. -/
def removeAllSub (pat s : Str) : Str := removeSubGo pat 0 s

/-- The DOI prefix stripped throughout SONaa.py. -/
def doiPrefix : Str :=
  ('h' :: 't' :: 't' :: 'p' :: 's' :: ':' :: '/' :: '/' :: 'd' :: 'o' ::
   'i' :: '.' :: 'o' :: 'r' :: 'g' :: ['/'])

/-- `str(doi).replace('https://doi.org/', '').lower()` — the DOI
normalization used by `merge_articles`, `clean` and
`identify_doi_duplicates`. -/
def cleanDoi (d : Str) : Str := lowerPy (removeAllSub doiPrefix d)

/-- `str(doi).lower().replace('https://doi.org/', '')` — the variant
order used by `identify_title_duplicates` (line 1603). -/
def cleanDoi2 (d : Str) : Str := removeAllSub doiPrefix (lowerPy d)

/-- The sentinel string `"empty"`. -/
def emptyStr : Str := ('e' :: 'm' :: 'p' :: 't' :: ['y'])

/-- The DOI-presence test used at lines 1138, 1178, 1228, 1262:
present, not NaN, truthy and not the `"empty"` sentinel. -/
def doiOk : Option Str → Bool
  | some s => decide (s ≠ [] ∧ s ≠ emptyStr)
  | none => false

/-- Suffix after the last occurrence of `pat`, when one exists. -/
def afterLastOpt (pat : Str) : Str → Option Str
  | [] => none
  | c :: r =>
    match afterLastOpt pat r with
    | some s => some s
    | none =>
      if prefOf pat (c :: r) then some ((c :: r).drop pat.length) else none

/-- Python `s.split(pat)[-1]`: the suffix after the last occurrence of
`pat`, or the whole string when `pat` does not occur. -/
def splitLastAfter (pat s : Str) : Str := (afterLastOpt pat s).getD s

/-- The substring `"org/"`. -/
def orgSlash : Str := ('o' :: 'r' :: 'g' :: ['/'])

/-- Python `\w` on a code point (faithful on ASCII). -/
def isWordCharPy (c : Char) : Bool := c.isAlphanum || c = '_'

/-- The `re.sub(r'\s+', '_', ·)` used on title fallbacks: each
whitespace run becomes one underscore. -/
def collapseGoU : Bool → Str → Str
  | _, [] => []
  | inRun, c :: rest =>
    if isSp c then
      if inRun then collapseGoU true rest
      else '_' :: collapseGoU true rest
    else c :: collapseGoU false rest

/-- The `"title_"` prefix. -/
def titlePrefix : Str := ('t' :: 'i' :: 't' :: 'l' :: 'e' :: ['_'])

/-- The `"unknown_"` prefix. -/
def unknownPrefix : Str :=
  ('u' :: 'n' :: 'k' :: 'n' :: 'o' :: 'w' :: 'n' :: ['_'])

/-- `SONaa.create_article_id` (SONaa.py lines 869-925) on the
extracted `doi` and `title` cells.  `rand` stands for the random draw
the code makes: three random uppercase letters on the title branch, a
truncated `uuid4` on the last branch. -/
def create_article_id (doi title : Option Str) (rand : Str) : Str :=
  match doi with
  | some d =>
    if d ≠ [] ∧ d ≠ emptyStr then
      let doi_part := if isSubstr orgSlash d then splitLastAfter orgSlash d else d
      replAll '/' '&' (replAll '.' '_' (lowerPy doi_part))
    else
      match title with
      | some t =>
        if t ≠ [] then
          titlePrefix ++
            (collapseGoU false
              ((lowerPy t).filter (fun c => isWordCharPy c || isSp c))).take 20 ++
            '_' :: rand
        else unknownPrefix ++ rand
      | none => unknownPrefix ++ rand
  | none =>
    match title with
    | some t =>
      if t ≠ [] then
        titlePrefix ++
          (collapseGoU false
            ((lowerPy t).filter (fun c => isWordCharPy c || isSp c))).take 20 ++
          '_' :: rand
      else unknownPrefix ++ rand
    | none => unknownPrefix ++ rand

/-! ### merge_articles (SONaa.py lines 1103-1318) -/

/-- The `id_to_idx` dictionary (lines 1119-1123): last row wins per
Article_ID, insertion order preserved. -/
def idToIdx (reg : List Article) (ids : List Str) : List (Str × Nat) :=
  reg.enum.foldl
    (fun m p => if p.2.articleID ∈ ids then dinsert p.2.articleID p.1 m else m)
    []

/-- Main-article selection (lines 1131-1146): the first located entry
carrying a usable DOI, else the first id of the argument list. -/
def mainSel (reg : List Article) (ids : List Str) (m : List (Str × Nat)) :
    Str × Nat :=
  match m.find? (fun e => doiOk (reg.getD e.2 default).doi) with
  | some e => e
  | none => (ids.headD [], (dlookup (ids.headD []) m).getD 0)

/-- Tracking-cell normalization (lines 1156-1170 and 1207-1220): a
missing cell defaults to the record's own id. -/
def trackingOf (a : Article) : List Str :=
  match a.tracking with
  | some l => l
  | none => [a.articleID]

/-- `old_dois`-cell normalization (lines 1172-1190 and 1222-1240): a
missing cell defaults to the cleaned current DOI when usable. -/
def oldDoisOf (a : Article) : List Str :=
  match a.old_dois with
  | some l => l
  | none =>
    match a.doi with
    | some d => if d ≠ [] ∧ d ≠ emptyStr then [cleanDoi d] else []
    | none => []

/-- Authors-cell normalization (lines 1193-1195, 1249-1251). -/
def authorsOf (a : Article) : List Str := a.authors.getD []

/-- `sum(1 for ...)` digits of a 4-digit string. -/
def digitsToNat (s : Str) : Nat :=
  s.foldl (fun a c => a * 10 + (c.toNat - 48)) 0

/-- The year-candidate test of `re.search(r'\b(19|20)\d{2}\b', ·)` at
the current position, given the previous character. -/
def yearAt (prev : Option Char) : Str → Option Nat
  | c1 :: c2 :: c3 :: c4 :: tail =>
    if ((c1 = '1' ∧ c2 = '9') ∨ (c1 = '2' ∧ c2 = '0')) ∧
        c3.isDigit = true ∧ c4.isDigit = true ∧
        (match prev with
         | some p => !isWordCharPy p
         | none => true) = true ∧
        (match tail.head? with
         | some nx => !isWordCharPy nx
         | none => true) = true then
      some ((c1.toNat - 48) * 1000 + (c2.toNat - 48) * 100 +
        (c3.toNat - 48) * 10 + (c4.toNat - 48))
    else none
  | _ => none

/-- Leftmost match of `re.search(r'\b(19|20)\d{2}\b', ·)`. -/
def findYear (prev : Option Char) : Str → Option Nat
  | [] => none
  | c :: rest =>
    match yearAt prev (c :: rest) with
    | some y => some y
    | none => findYear (some c) rest

/-- The year extracted from the secondary record's date cell
(lines 1280-1292); `none` keeps the main record's missing date. -/
def dateFrom : DateVal → Option DateVal
  | .num n => some (.num n)
  | .strv s =>
    if s.all Char.isDigit ∧ s.length = 4 then some (.num (digitsToNat s))
    else
      match findYear none s with
      | some y => some (.num (Int.ofNat y))
      | none => none

/-- The merge loop state: the accumulated union lists, the fields as
written to the DataFrame (`df`), and the stale `main_article` row
snapshot the loop reads (refreshed only after a DOI or date copy,
lines 1272 and 1295 — URL copies do not refresh it). -/
structure MergeState where
  tracking : List Str
  old_dois : List Str
  authors : List Str
  dfDoi : Option Str
  dfDate : Option DateVal
  dfPdf : Option Str
  dfLand : Option Str
  dfOa : Option Str
  snapDoi : Option Str
  snapDate : Option DateVal
  snapPdf : Option Str
  snapLand : Option Str
  snapOa : Option Str
deriving DecidableEq

/-- The union statements of the merge loop body (lines 1243-1256):
tracking and `old_dois` via `list(set(+))`, authors by appending the
unseen ones. -/
def mergeStepUnions (reg : List Article) (ms : MergeState) (idx : Nat) :
    MergeState :=
  let other := reg.getD idx default
  { ms with
    tracking := (ms.tracking ++ trackingOf other).dedup
    old_dois := (ms.old_dois ++ oldDoisOf other).dedup
    authors := (authorsOf other).foldl
      (fun acc a => if a ∈ acc then acc else acc ++ [a]) ms.authors }

/-- The DOI copy (lines 1258-1273): when the stale main snapshot shows
no usable DOI and the secondary record has one, copy it, append its
normalized form, and refresh the snapshot from the DataFrame. -/
def mergeStepDoi (reg : List Article) (ms : MergeState) (idx : Nat) :
    MergeState :=
  let other := reg.getD idx default
  if doiOk ms.snapDoi = false ∧ doiOk other.doi = true then
    let cd := cleanDoi (other.doi.getD [])
    { ms with
      old_dois := if cd ∈ ms.old_dois then ms.old_dois else ms.old_dois ++ [cd]
      dfDoi := other.doi
      snapDoi := other.doi
      snapDate := ms.dfDate
      snapPdf := ms.dfPdf
      snapLand := ms.dfLand
      snapOa := ms.dfOa }
  else ms

/-- The date copy (lines 1275-1296): when the snapshot shows no date
and the secondary record has one, store the extracted year and refresh
the snapshot from the DataFrame. -/
def mergeStepDate (reg : List Article) (ms : MergeState) (idx : Nat) :
    MergeState :=
  let other := reg.getD idx default
  if ms.snapDate = none ∧ other.date ≠ none then
    let df2 :=
      match other.date with
      | some od2 =>
        match dateFrom od2 with
        | some d => some d
        | none => ms.dfDate
      | none => ms.dfDate
    { ms with
      dfDate := df2
      snapDoi := ms.dfDoi
      snapDate := df2
      snapPdf := ms.dfPdf
      snapLand := ms.dfLand
      snapOa := ms.dfOa }
  else ms

/-- The `pdf_url` copy of the URL loop (lines 1298-1305): reads the
stale snapshot, writes the DataFrame, refreshes nothing. -/
def mergeStepPdf (reg : List Article) (ms : MergeState) (idx : Nat) :
    MergeState :=
  if ms.snapPdf = none ∧ (reg.getD idx default).pdf_url ≠ none then
    { ms with dfPdf := (reg.getD idx default).pdf_url }
  else ms

/-- The `landing_page_url` copy of the URL loop (lines 1298-1305). -/
def mergeStepLand (reg : List Article) (ms : MergeState) (idx : Nat) :
    MergeState :=
  if ms.snapLand = none ∧ (reg.getD idx default).landing_page_url ≠ none then
    { ms with dfLand := (reg.getD idx default).landing_page_url }
  else ms

/-- The `oa_url` copy of the URL loop (lines 1298-1305). -/
def mergeStepOa (reg : List Article) (ms : MergeState) (idx : Nat) :
    MergeState :=
  if ms.snapOa = none ∧ (reg.getD idx default).oa_url ≠ none then
    { ms with dfOa := (reg.getD idx default).oa_url }
  else ms

/-- One iteration of the merge loop (lines 1201-1306) over the
secondary record at position `idx`: the statements of the loop body in
source order. -/
def mergeStep (reg : List Article) (ms : MergeState) (idx : Nat) : MergeState :=
  mergeStepOa reg
    (mergeStepLand reg
      (mergeStepPdf reg
        (mergeStepDate reg
          (mergeStepDoi reg (mergeStepUnions reg ms idx) idx) idx) idx) idx) idx

/-- The state the merge starts from: the main record's own cells
(lines 1156-1195). -/
def mergeInit (main : Article) : MergeState :=
  { tracking := trackingOf main
    old_dois := oldDoisOf main
    authors := authorsOf main
    dfDoi := main.doi
    dfDate := main.date
    dfPdf := main.pdf_url
    dfLand := main.landing_page_url
    dfOa := main.oa_url
    snapDoi := main.doi
    snapDate := main.date
    snapPdf := main.pdf_url
    snapLand := main.landing_page_url
    snapOa := main.oa_url }

/-- The merged main record written back at lines 1309-1316 (the DOI,
date and URL cells were written to the DataFrame during the loop; the
model applies all writes at write-back, which is equivalent because
the loop reads the main row only through its snapshot). -/
def mergeWriteBack (main : Article) (ms : MergeState) (rand : Str) : Article :=
  let main2 := { main with
    tracking := some ms.tracking
    authors := some ms.authors
    old_dois := some ms.old_dois
    doi := ms.dfDoi
    date := ms.dfDate
    pdf_url := ms.dfPdf
    landing_page_url := ms.dfLand
    oa_url := ms.dfOa }
  { main2 with articleID := create_article_id main2.doi main2.title rand }

/-- `SONaa.merge_articles` (lines 1103-1318).  Returns the
`(success, new_main_id)` pair and the registry, unchanged on every
failure path. -/
def merge_articles (reg : List Article) (ids : List Str) (rand : Str) :
    (Bool × Option Str) × List Article :=
  if reg.length = 0 then ((false, none), reg)
  else if ids.length ≤ 1 then ((false, ids.head?), reg)
  else
    let m := idToIdx reg ids
    if m.length ≠ ids.length then ((false, none), reg)
    else
      let sel := mainSel reg ids m
      let main := reg.getD sel.2 default
      let msF := (m.filter (fun e => e.1 ≠ sel.1)).foldl
        (fun s e => mergeStep reg s e.2) (mergeInit main)
      let main3 := mergeWriteBack main msF rand
      ((true, some main3.articleID), reg.set sel.2 main3)

/-! ### The per-group merge step of clean (SONaa.py lines 1364-1411
and 1460-1513) -/

/-- The `all_dois` collection of lines 1368-1382 and 1466-1480. -/
def collectAllDois (reg : List Article) (idxs : List Nat) : List Str :=
  (idxs.foldl
    (fun acc i =>
      let a := reg.getD i default
      let acc2 :=
        match a.doi with
        | some d => if d ≠ [] ∧ d ≠ emptyStr then acc ++ [cleanDoi d] else acc
        | none => acc
      match a.old_dois with
      | some l => if l ≠ [] then acc2 ++ l else acc2
      | none => acc2)
    []).dedup

/-- The Article_IDs of a group of row positions. -/
def groupIds (reg : List Article) (idxs : List Nat) : List Str :=
  idxs.map (fun i => (reg.getD i default).articleID)

/-- Drop the rows at the given positions (`DataFrame.drop` plus
`reset_index`). -/
def removeIdxs (reg : List Article) (idxs : List Nat) : List Article :=
  (reg.enum.filter (fun p => decide (p.1 ∉ idxs))).map (fun p => p.2)

/-- One group of `clean`'s merge phases (lines 1364-1411, identically
1460-1513): collect the group's DOIs, merge, overwrite the surviving
record's `old_dois` with the collection, and delete the absorbed
rows.  `clean` defers the deletions to the end of the phase; per-group
deletion is equivalent for the disjoint groups the phases produce. -/
def cleanMergeGroup (reg : List Article) (idxs : List Nat) (rand : Str) :
    List Article :=
  let all_dois := collectAllDois reg idxs
  let res := merge_articles reg (groupIds reg idxs) rand
  if res.1.1 = true then
    let reg2 := res.2
    let main_id := res.1.2.getD []
    match idxs.find? (fun i => decide ((reg2.getD i default).articleID = main_id)) with
    | some mi =>
      let reg3 := reg2.set mi
        { (reg2.getD mi default) with old_dois := some all_dois }
      removeIdxs reg3 (idxs.filter (fun i => decide (i ≠ mi)))
    | none => reg2
  else res.2

/-- The tracking / `old_dois` column initialization of `clean`
(lines 1337-1353): performed only when the respective column is
absent, i.e. when no row carries the cell (the flags stand for column
presence). -/
def clean_init (hasTracking hasOldDois : Bool) (reg : List Article) :
    List Article :=
  let r1 :=
    if hasTracking then reg
    else reg.map (fun a => { a with tracking := some [a.articleID] })
  if hasOldDois then r1
  else r1.map (fun a =>
    let od : List Str :=
      match a.doi with
      | some d => if d ≠ [] ∧ d ≠ emptyStr then [cleanDoi d] else []
      | none => []
    { a with old_dois := some od })

/-! ### identify_title_duplicates (SONaa.py lines 1559-1643) -/

/-- The ASCII punctuation removed from titles
(`string.punctuation`). -/
def punctuationChars : List Char :=
  ['!', '\x22', '#', '$', '%', '&', '\x27', '(', ')', '*', '+', ',',
   '-', '.', '/', ':', ';', '<', '=', '>', '?', '@', '[', '\\', ']',
   '^', '_', '\x60', '\x7B', '|', '\x7D', '~']

/-- The standardized title (lines 1571-1573): lowercase, punctuation
removed; `NaN` becomes the empty string. -/
def stdTitle (t : Option Str) : Str :=
  match t with
  | some s => (lowerPy s).filter (fun c => decide (c ∉ punctuationChars))
  | none => []

/-- Append a row index to its title group, creating the group at the
end on first sight (Python dict-of-lists insertion order). -/
def ginsert (k : Str) (i : Nat) : List (Str × List Nat) → List (Str × List Nat)
  | [] => [(k, [i])]
  | (k2, l) :: t => if k2 = k then (k2, l ++ [i]) :: t else (k2, l) :: ginsert k i t

/-- The title grouping of lines 1576-1582: rows with a standardized
title that is nonblank and at least 5 characters. -/
def titleGroups (reg : List Article) : List (Str × List Nat) :=
  reg.enum.foldl
    (fun g p =>
      let t := stdTitle p.2.title
      if stripPy t ≠ [] ∧ 5 ≤ t.length then ginsert t p.1 g else g)
    []

/-- The per-group DOI sub-grouping of lines 1592-1606: groups keyed by
the normalized DOI, plus the list of DOI-less rows. -/
def groupDois (reg : List Article) (idxs : List Nat) :
    List (Str × List Nat) × List Nat :=
  idxs.foldl
    (fun acc i =>
      let a := reg.getD i default
      match a.doi with
      | some d =>
        if d = [] ∨ d = emptyStr then (acc.1, acc.2 ++ [i])
        else (ginsert (cleanDoi2 d) i acc.1, acc.2)
      | none => (acc.1, acc.2 ++ [i]))
    ([], [])

/-- The conflict report built at lines 1609-1623: the first row's raw
title and, per distinct DOI, the Article_IDs, with the DOI-less rows
reported under the `"empty"` key. -/
def conflictInfo (reg : List Article) (g : Str × List Nat) :
    Str × List (Str × List Str) :=
  let dn := groupDois reg g.2
  ((reg.getD (g.2.headD 0) default).title.getD [],
   dn.1.map (fun p => (p.1, p.2.map (fun i => (reg.getD i default).articleID))) ++
     (if dn.2 ≠ [] then
       [(emptyStr, dn.2.map (fun i => (reg.getD i default).articleID))]
      else []))

/-- The classification of one title group (lines 1591-1641): a
conflict when it holds more than one distinct non-empty DOI, else a
safe-to-merge group (the one DOI sub-group with the DOI-less rows
appended, or the DOI-less rows alone). -/
def classifyGroup (reg : List Article) (g : Str × List Nat) :
    (Str × List Nat) ⊕ (Str × List (Str × List Str)) :=
  let dn := groupDois reg g.2
  if 1 < dn.1.length then Sum.inr (conflictInfo reg g)
  else if dn.1.length = 1 then
    Sum.inl (g.1, (dn.1.headD ([], [])).2 ++ dn.2)
  else Sum.inl (g.1, dn.2)

/-- `SONaa.identify_title_duplicates` (lines 1559-1643): the
safe-to-merge groups and the conflict reports, in group order. -/
def identify_title_duplicates (reg : List Article) :
    List (Str × List Nat) × List (Str × List (Str × List Str)) :=
  let dups := (titleGroups reg).filter (fun g => decide (1 < g.2.length))
  (dups.filterMap (fun g =>
      match classifyGroup reg g with
      | Sum.inl x => some x
      | Sum.inr _ => none),
   dups.filterMap (fun g =>
      match classifyGroup reg g with
      | Sum.inr y => some y
      | Sum.inl _ => none))

/-- The list of title groups `clean` merges in its step 2
(lines 1460-1507): exactly the safe-to-merge component of
`identify_title_duplicates` — conflict groups are only printed,
never passed to `merge_articles`. -/
def clean_title_merge_list (reg : List Article) : List (Str × List Nat) :=
  (identify_title_duplicates reg).1

/-! ### tools_SONaa.py -/

/-- `short_DOI` (tools_SONaa.py lines 5-15, `ID=True`): the part
after `org/`, with `.` as `_` and `/` as `&` — and no lowercasing. -/
def short_DOI (doi : Str) : Str :=
  replAll '/' '&' (replAll '.' '_' (splitLastAfter orgSlash doi))

/-- Python `re.split('-|/', date)`. -/
def splitOnP (p : Char → Bool) : Str → List Str
  | [] => [[]]
  | d :: r =>
    if p d then [] :: splitOnP p r
    else
      match splitOnP p r with
      | h :: t => (d :: h) :: t
      | [] => [[d]]

/-- The `"unrecovered"` sentinel. -/
def unrecoveredStr : Str :=
  ('u' :: 'n' :: 'r' :: 'e' :: 'c' :: 'o' :: 'v' :: 'e' :: 'r' :: 'e' :: ['d'])

/-- `clean_date` (tools_SONaa.py lines 88-94): keep the sentinel and
4-character dates; otherwise the first 4-character component after
splitting on `-` and `/` — `none` models the `IndexError` raised when
no such component exists. -/
def clean_date (date : Str) : Option Str :=
  if date = unrecoveredStr then some date
  else if date.length = 4 then some date
  else ((splitOnP (fun c => c = '-' || c = '/') date).filter
    (fun x => decide (x.length = 4))).head?

/-- One fixed-width field of the fallback key: the writing loops of
lines 44-68 fill `n` slots from the string and leave the remaining
slots as the initial underscores. -/
def fitField (n : Nat) (s : Str) : Str :=
  s.take n ++ List.replicate (n - s.length) '_'

/-- `create_Article_ID` (tools_SONaa.py lines 31-70) on a row, on the
default (`old=False`) fixed-width path: the DOI-derived id when the
DOI cell is not the `"empty"` sentinel, else title characters in
slots 0-21, journal in 23-34 and the cleaned 4-digit date in 36-39 of
a 40-slot underscore template. -/
def create_Article_ID (doi title journal date : Str) : Option Str :=
  if doi ≠ emptyStr then some (short_DOI doi)
  else
    match clean_date date with
    | some ds =>
      some (fitField 22 title ++ '_' :: fitField 12 journal ++
        '_' :: fitField 4 ds)
    | none => none


/-! ### C6: article key derivation -/

/-- Each fixed-width field of the fallback key occupies exactly its
`n` slots. -/
theorem fitField_length (n : Nat) (s : Str) : (fitField n s).length = n := by
  simp [fitField]
  omega

/-- **C6** (counterexample).  Key derivation is not a function of the
record's fields on the title fallback: with no DOI and the same title
`"Foo"`, two calls drawing different random three-letter suffixes
return different ids. -/
theorem C6_title_fallback_random_cex :
    create_article_id none (some ('F' :: 'o' :: ['o'])) ('A' :: 'B' :: ['C']) ≠
      create_article_id none (some ('F' :: 'o' :: ['o'])) ('X' :: 'Y' :: ['Z']) := by
  decide

/-- **C6** (amended).  On the identifier branch (a usable DOI),
`create_article_id` is independent of the random draw, hence a
deterministic function of the DOI; and the structured fixed-width
fallback of the data-creation tool `create_Article_ID` is fully
deterministic: title in slots 0-21, journal in 23-34, the cleaned
4-digit date in 36-39 of a 40-slot underscore template.  Only the
title fallback of `SONaa.create_article_id` is randomized. -/
theorem C6_key_derivation (d : Str) (t : Option Str) (r r' : Str)
    (hd : doiOk (some d) = true) :
    create_article_id (some d) t r = create_article_id (some d) t r' ∧
    ∀ title journal date ds, clean_date date = some ds →
      create_Article_ID emptyStr title journal date =
        some (fitField 22 title ++ '_' :: fitField 12 journal ++
          '_' :: fitField 4 ds) ∧
      (fitField 22 title ++ '_' :: fitField 12 journal ++
        '_' :: fitField 4 ds).length = 40 := by
  have h : d ≠ [] ∧ d ≠ emptyStr := of_decide_eq_true (by simpa [doiOk] using hd)
  constructor
  · simp only [create_article_id]
    rw [if_pos h, if_pos h]
  · intro title journal date ds hds
    constructor
    · simp only [create_Article_ID]
      rw [if_neg (fun hne => hne rfl), hds]
    · simp [fitField_length]

/-- **C6** (witness): the amended theorem at the DOI `"10.1"`, the
randoms `"ABC"` and `"XYZ"`, and the fallback row
(title `"T"`, journal `"J"`, date `"2019"`). -/
theorem C6_key_derivation_witness :
    create_article_id (some ('1' :: '0' :: '.' :: ['1'])) none ('A' :: 'B' :: ['C']) =
      create_article_id (some ('1' :: '0' :: '.' :: ['1'])) none ('X' :: 'Y' :: ['Z']) ∧
    create_Article_ID emptyStr ['T'] ['J'] ('2' :: '0' :: '1' :: ['9']) =
      some (fitField 22 ['T'] ++ '_' :: fitField 12 ['J'] ++
        '_' :: fitField 4 ('2' :: '0' :: '1' :: ['9'])) := by
  have h := C6_key_derivation ('1' :: '0' :: '.' :: ['1']) none
    ('A' :: 'B' :: ['C']) ('X' :: 'Y' :: ['Z']) (by decide)
  exact ⟨h.1, (h.2 ['T'] ['J'] ('2' :: '0' :: '1' :: ['9'])
    ('2' :: '0' :: '1' :: ['9']) (by decide)).1⟩


/-! ### C1: failure atomicity of merge_articles -/

/-- Elements after a dict assignment: the new binding or an old one. -/
theorem mem_dinsert {κ α : Type} [DecidableEq κ] (k : κ) (v : α) :
    ∀ (l : List (κ × α)) (e : κ × α), e ∈ dinsert k v l → e = (k, v) ∨ e ∈ l
  | [], e => by simp [dinsert]
  | (k2, v2) :: t, e => by
    simp only [dinsert]
    by_cases h : k2 = k
    · subst h
      rw [if_pos rfl]
      intro he
      rcases List.mem_cons.mp he with h1 | h1
      · exact Or.inl h1
      · exact Or.inr (List.mem_cons_of_mem _ h1)
    · rw [if_neg h]
      intro he
      rcases List.mem_cons.mp he with h1 | h1
      · exact Or.inr (h1 ▸ List.mem_cons_self _ _)
      · rcases mem_dinsert k v t e h1 with h2 | h2
        · exact Or.inl h2
        · exact Or.inr (List.mem_cons_of_mem _ h2)

/-- Dict assignment keeps the key list, or appends the fresh key. -/
theorem keys_dinsert {κ α : Type} [DecidableEq κ] (k : κ) (v : α) :
    ∀ (l : List (κ × α)), (dinsert k v l).map Prod.fst =
      if k ∈ l.map Prod.fst then l.map Prod.fst else l.map Prod.fst ++ [k]
  | [] => by simp [dinsert]
  | (k2, v2) :: t => by
    simp only [dinsert]
    by_cases h : k2 = k
    · subst h
      rw [if_pos rfl, if_pos (by simp)]
      simp
    · rw [if_neg h]
      simp only [List.map_cons]
      by_cases h2 : k ∈ t.map Prod.fst
      · rw [if_pos (List.mem_cons_of_mem _ h2), keys_dinsert k v t, if_pos h2]
      · have hnk : ¬ k ∈ k2 :: t.map Prod.fst := by
          simp only [List.mem_cons]
          rintro (rfl | hc)
          · exact h rfl
          · exact h2 hc
        rw [if_neg hnk, keys_dinsert k v t, if_neg h2]
        simp

/-- Fold invariant for the `id_to_idx` accumulation. -/
theorem foldIdx_inv (ids : List Str) {P : Str × Nat → Prop} :
    ∀ (l : List (Nat × Article)) (m0 : List (Str × Nat)),
      (∀ e ∈ m0, P e) →
      (∀ p ∈ l, p.2.articleID ∈ ids → P (p.2.articleID, p.1)) →
      ∀ e ∈ l.foldl
        (fun m p => if p.2.articleID ∈ ids then dinsert p.2.articleID p.1 m else m)
        m0, P e
  | [], _, hm0, _ => hm0
  | p :: t, m0, hm0, hl => by
    intro e he
    simp only [List.foldl_cons] at he
    refine foldIdx_inv ids t _ ?_ (fun q hq => hl q (List.mem_cons_of_mem _ hq)) e he
    intro e2 he2
    by_cases hc : p.2.articleID ∈ ids
    · rw [if_pos hc] at he2
      rcases mem_dinsert _ _ _ e2 he2 with h1 | h1
      · rw [h1]; exact hl p (List.mem_cons_self _ _) hc
      · exact hm0 e2 h1
    · rw [if_neg hc] at he2
      exact hm0 e2 he2

/-- The accumulated `id_to_idx` keys stay pairwise distinct. -/
theorem foldIdx_keys_nodup (ids : List Str) :
    ∀ (l : List (Nat × Article)) (m0 : List (Str × Nat)),
      (m0.map Prod.fst).Nodup →
      ((l.foldl
        (fun m p => if p.2.articleID ∈ ids then dinsert p.2.articleID p.1 m else m)
        m0).map Prod.fst).Nodup
  | [], _, h0 => h0
  | p :: t, m0, h0 => by
    simp only [List.foldl_cons]
    refine foldIdx_keys_nodup ids t _ ?_
    by_cases hc : p.2.articleID ∈ ids
    · rw [if_pos hc, keys_dinsert]
      by_cases h2 : p.2.articleID ∈ m0.map Prod.fst
      · rw [if_pos h2]; exact h0
      · rw [if_neg h2]
        refine List.Nodup.append h0 (List.nodup_singleton _) ?_
        intro a ha hb
        rw [List.mem_singleton] at hb
        subst hb
        exact h2 ha
    · rw [if_neg hc]; exact h0

/-- Every `id_to_idx` entry holds a located, in-range occurrence of a
requested id. -/
theorem idToIdx_mem (reg : List Article) (ids : List Str) :
    ∀ e ∈ idToIdx reg ids,
      e.1 ∈ ids ∧ e.2 < reg.length ∧ (reg.getD e.2 default).articleID = e.1 := by
  unfold idToIdx
  refine foldIdx_inv ids reg.enum [] (by simp) ?_
  intro p hp hin
  have hg : reg[p.1]? = some p.2 := List.mem_enum_iff_getElem?.mp hp
  have hlt : p.1 < reg.length := by
    by_contra hge
    rw [List.getElem?_eq_none (by omega)] at hg
    exact Option.noConfusion hg
  have hgd : reg.getD p.1 default = p.2 := by
    simp [List.getD_eq_getElem?_getD, hg]
  exact ⟨hin, hlt, by rw [hgd]⟩

/-- The `id_to_idx` keys are pairwise distinct. -/
theorem idToIdx_keys_nodup (reg : List Article) (ids : List Str) :
    ((idToIdx reg ids).map Prod.fst).Nodup := by
  unfold idToIdx
  exact foldIdx_keys_nodup ids reg.enum [] (by simp)

/-- **C1**: called with fewer than two ids, or with an id that no
registry record carries, `merge_articles` reports failure and returns
the registry exactly as given — no partial merge occurs. -/
theorem C1_merge_failure_atomic (reg : List Article) (ids : List Str) (rand : Str)
    (h : ids.length < 2 ∨ ∃ id ∈ ids, ∀ a ∈ reg, a.articleID ≠ id) :
    (merge_articles reg ids rand).1.1 = false ∧
      (merge_articles reg ids rand).2 = reg := by
  by_cases h0 : reg.length = 0
  · simp only [merge_articles, if_pos h0]
    exact ⟨trivial, trivial⟩
  by_cases h1 : ids.length ≤ 1
  · simp only [merge_articles, if_neg h0, if_pos h1]
    exact ⟨trivial, trivial⟩
  rcases h with h2 | ⟨id, hin, hmiss⟩
  · exact (h1 (by omega)).elim
  have hne : (idToIdx reg ids).length ≠ ids.length := by
    have hnd := idToIdx_keys_nodup reg ids
    have hsub : ((idToIdx reg ids).map Prod.fst) ⊆ ids.erase id := by
      intro x hx
      obtain ⟨e, he, rfl⟩ := List.mem_map.mp hx
      obtain ⟨hin2, hlt, hgd⟩ := idToIdx_mem reg ids e he
      have hmem : reg.getD e.2 default ∈ reg := by
        rw [List.getD_eq_getElem _ _ hlt]
        exact reg.getElem_mem hlt
      have hne2 : e.1 ≠ id := by
        rw [← hgd]
        exact hmiss _ hmem
      exact (List.mem_erase_of_ne hne2).mpr hin2
    have hlen : (idToIdx reg ids).length ≤ ids.length - 1 := by
      have hle := (hnd.subperm hsub).length_le
      rw [List.length_erase_of_mem hin] at hle
      simpa using hle
    omega
  simp only [merge_articles, if_neg h0, if_neg h1, if_pos hne]
  exact ⟨trivial, trivial⟩

/-- A one-row registry used by the closed instances below. -/
def artC1 : Article :=
  ⟨['a'], none, none, none, none, none, none, none, none, none, none⟩

/-- **C1** (witness): the atomicity theorem at the one-record registry
and the id list `["a", "z"]` whose second id is unknown. -/
theorem C1_merge_failure_atomic_witness :
    (merge_articles [artC1] [['a'], ['z']] ['Q']).1.1 = false ∧
      (merge_articles [artC1] [['a'], ['z']] ['Q']).2 = [artC1] :=
  C1_merge_failure_atomic [artC1] [['a'], ['z']] ['Q']
    (Or.inr ⟨['z'], by decide, by decide⟩)


/-! ### C2 / C3: the merge loop unions -/

/-- Field equations of the union statements. -/
theorem mergeStepUnions_proj (reg : List Article) (ms : MergeState) (i : Nat) :
    (mergeStepUnions reg ms i).tracking =
      (ms.tracking ++ trackingOf (reg.getD i default)).dedup ∧
    (mergeStepUnions reg ms i).old_dois =
      (ms.old_dois ++ oldDoisOf (reg.getD i default)).dedup ∧
    (mergeStepUnions reg ms i).authors =
      (authorsOf (reg.getD i default)).foldl
        (fun acc a => if a ∈ acc then acc else acc ++ [a]) ms.authors ∧
    (mergeStepUnions reg ms i).dfDoi = ms.dfDoi ∧
    (mergeStepUnions reg ms i).snapDoi = ms.snapDoi :=
  ⟨rfl, rfl, rfl, rfl, rfl⟩

/-- The DOI copy leaves tracking and authors alone and only grows
`old_dois`. -/
theorem mergeStepDoi_keep (reg : List Article) (ms : MergeState) (i : Nat) :
    (mergeStepDoi reg ms i).tracking = ms.tracking ∧
    (mergeStepDoi reg ms i).authors = ms.authors ∧
    ∀ x ∈ ms.old_dois, x ∈ (mergeStepDoi reg ms i).old_dois := by
  simp only [mergeStepDoi]
  split
  · refine ⟨rfl, rfl, fun x hx => ?_⟩
    dsimp only
    split
    · exact hx
    · exact List.mem_append_left _ hx
  · exact ⟨rfl, rfl, fun _ hx => hx⟩

/-- The DOI copy keeps the snapshot DOI in sync with the written DOI
and keeps the written DOI's normalized form in `old_dois`. -/
theorem mergeStepDoi_inv (reg : List Article) (ms : MergeState) (i : Nat)
    (hsync : ms.snapDoi = ms.dfDoi)
    (hinv : doiOk ms.dfDoi = true → cleanDoi (ms.dfDoi.getD []) ∈ ms.old_dois) :
    (mergeStepDoi reg ms i).snapDoi = (mergeStepDoi reg ms i).dfDoi ∧
    (doiOk (mergeStepDoi reg ms i).dfDoi = true →
      cleanDoi ((mergeStepDoi reg ms i).dfDoi.getD []) ∈
        (mergeStepDoi reg ms i).old_dois) := by
  simp only [mergeStepDoi]
  split
  · refine ⟨rfl, fun _ => ?_⟩
    dsimp only
    split
    next h => exact h
    next h => exact List.mem_append_right _ (List.mem_singleton_self _)
  · exact ⟨hsync, hinv⟩

/-- The date copy changes no merged list and no written DOI; it keeps
the snapshot DOI in sync. -/
theorem mergeStepDate_keep (reg : List Article) (ms : MergeState) (i : Nat) :
    (mergeStepDate reg ms i).tracking = ms.tracking ∧
    (mergeStepDate reg ms i).authors = ms.authors ∧
    (mergeStepDate reg ms i).old_dois = ms.old_dois ∧
    (mergeStepDate reg ms i).dfDoi = ms.dfDoi ∧
    (ms.snapDoi = ms.dfDoi →
      (mergeStepDate reg ms i).snapDoi = (mergeStepDate reg ms i).dfDoi) := by
  simp only [mergeStepDate]
  split
  · exact ⟨rfl, rfl, rfl, rfl, fun _ => rfl⟩
  · exact ⟨rfl, rfl, rfl, rfl, fun h => h⟩

/-- A URL copy touches only its URL cell. -/
theorem mergeStepPdf_keep (reg : List Article) (ms : MergeState) (i : Nat) :
    (mergeStepPdf reg ms i).tracking = ms.tracking ∧
    (mergeStepPdf reg ms i).authors = ms.authors ∧
    (mergeStepPdf reg ms i).old_dois = ms.old_dois ∧
    (mergeStepPdf reg ms i).dfDoi = ms.dfDoi ∧
    (mergeStepPdf reg ms i).snapDoi = ms.snapDoi := by
  simp only [mergeStepPdf]
  split
  · exact ⟨rfl, rfl, rfl, rfl, rfl⟩
  · exact ⟨rfl, rfl, rfl, rfl, rfl⟩

/-- A URL copy touches only its URL cell. -/
theorem mergeStepLand_keep (reg : List Article) (ms : MergeState) (i : Nat) :
    (mergeStepLand reg ms i).tracking = ms.tracking ∧
    (mergeStepLand reg ms i).authors = ms.authors ∧
    (mergeStepLand reg ms i).old_dois = ms.old_dois ∧
    (mergeStepLand reg ms i).dfDoi = ms.dfDoi ∧
    (mergeStepLand reg ms i).snapDoi = ms.snapDoi := by
  simp only [mergeStepLand]
  split
  · exact ⟨rfl, rfl, rfl, rfl, rfl⟩
  · exact ⟨rfl, rfl, rfl, rfl, rfl⟩

/-- A URL copy touches only its URL cell. -/
theorem mergeStepOa_keep (reg : List Article) (ms : MergeState) (i : Nat) :
    (mergeStepOa reg ms i).tracking = ms.tracking ∧
    (mergeStepOa reg ms i).authors = ms.authors ∧
    (mergeStepOa reg ms i).old_dois = ms.old_dois ∧
    (mergeStepOa reg ms i).dfDoi = ms.dfDoi ∧
    (mergeStepOa reg ms i).snapDoi = ms.snapDoi := by
  simp only [mergeStepOa]
  split
  · exact ⟨rfl, rfl, rfl, rfl, rfl⟩
  · exact ⟨rfl, rfl, rfl, rfl, rfl⟩

/-- The merge loop's tracking union (line 1243): one full step. -/
theorem mergeStep_tracking (reg : List Article) (ms : MergeState) (i : Nat) :
    (mergeStep reg ms i).tracking =
      (ms.tracking ++ trackingOf (reg.getD i default)).dedup := by
  simp only [mergeStep]
  rw [(mergeStepOa_keep reg _ i).1, (mergeStepLand_keep reg _ i).1,
    (mergeStepPdf_keep reg _ i).1, (mergeStepDate_keep reg _ i).1,
    (mergeStepDoi_keep reg _ i).1, (mergeStepUnions_proj reg ms i).1]

/-- The merge loop's author union (lines 1253-1256): one full step. -/
theorem mergeStep_authors (reg : List Article) (ms : MergeState) (i : Nat) :
    (mergeStep reg ms i).authors =
      (authorsOf (reg.getD i default)).foldl
        (fun acc a => if a ∈ acc then acc else acc ++ [a]) ms.authors := by
  simp only [mergeStep]
  rw [(mergeStepOa_keep reg _ i).2.1, (mergeStepLand_keep reg _ i).2.1,
    (mergeStepPdf_keep reg _ i).2.1, (mergeStepDate_keep reg _ i).2.1,
    (mergeStepDoi_keep reg _ i).2.1, (mergeStepUnions_proj reg ms i).2.2.1]

/-- The merge loop's `old_dois` union (line 1246, possibly extended at
lines 1266-1268): one full step only grows the collection. -/
theorem mergeStep_old_dois (reg : List Article) (ms : MergeState) (i : Nat)
    (x : Str) (hx : x ∈ (ms.old_dois ++ oldDoisOf (reg.getD i default)).dedup) :
    x ∈ (mergeStep reg ms i).old_dois := by
  simp only [mergeStep]
  rw [(mergeStepOa_keep reg _ i).2.2.1, (mergeStepLand_keep reg _ i).2.2.1,
    (mergeStepPdf_keep reg _ i).2.2.1, (mergeStepDate_keep reg _ i).2.2.1]
  refine (mergeStepDoi_keep reg _ i).2.2 x ?_
  rw [(mergeStepUnions_proj reg ms i).2.1]
  exact hx

/-- Through one full loop step, the snapshot DOI stays in sync with
the written DOI, whose normalized form stays in `old_dois`. -/
theorem mergeStep_doi_inv (reg : List Article) (ms : MergeState) (i : Nat)
    (hsync : ms.snapDoi = ms.dfDoi)
    (hinv : doiOk ms.dfDoi = true → cleanDoi (ms.dfDoi.getD []) ∈ ms.old_dois) :
    (mergeStep reg ms i).snapDoi = (mergeStep reg ms i).dfDoi ∧
    (doiOk (mergeStep reg ms i).dfDoi = true →
      cleanDoi ((mergeStep reg ms i).dfDoi.getD []) ∈
        (mergeStep reg ms i).old_dois) := by
  simp only [mergeStep]
  have hU := mergeStepUnions_proj reg ms i
  have h1 : (mergeStepUnions reg ms i).snapDoi = (mergeStepUnions reg ms i).dfDoi := by
    rw [hU.2.2.2.1, hU.2.2.2.2, hsync]
  have h2 : doiOk (mergeStepUnions reg ms i).dfDoi = true →
      cleanDoi ((mergeStepUnions reg ms i).dfDoi.getD []) ∈
        (mergeStepUnions reg ms i).old_dois := by
    rw [hU.2.2.2.1, hU.2.1]
    intro hok
    exact List.mem_dedup.mpr (List.mem_append_left _ (hinv hok))
  obtain ⟨h3, h4⟩ := mergeStepDoi_inv reg _ i h1 h2
  have hD := mergeStepDate_keep reg (mergeStepDoi reg (mergeStepUnions reg ms i) i) i
  have h5 := hD.2.2.2.2 h3
  have h6 : doiOk (mergeStepDate reg (mergeStepDoi reg (mergeStepUnions reg ms i) i) i).dfDoi = true →
      cleanDoi ((mergeStepDate reg (mergeStepDoi reg (mergeStepUnions reg ms i) i) i).dfDoi.getD []) ∈
        (mergeStepDate reg (mergeStepDoi reg (mergeStepUnions reg ms i) i) i).old_dois := by
    rw [hD.2.2.2.1, hD.2.2.1]
    exact h4
  have hP := mergeStepPdf_keep reg (mergeStepDate reg (mergeStepDoi reg (mergeStepUnions reg ms i) i) i) i
  have hL := mergeStepLand_keep reg (mergeStepPdf reg (mergeStepDate reg (mergeStepDoi reg (mergeStepUnions reg ms i) i) i) i) i
  have hO := mergeStepOa_keep reg (mergeStepLand reg (mergeStepPdf reg (mergeStepDate reg (mergeStepDoi reg (mergeStepUnions reg ms i) i) i) i) i) i
  constructor
  · rw [hO.2.2.2.2, hO.2.2.2.1, hL.2.2.2.2, hL.2.2.2.1, hP.2.2.2.2, hP.2.2.2.1, h5]
  · rw [hO.2.2.2.1, hO.2.2.1, hL.2.2.2.1, hL.2.2.1, hP.2.2.2.1, hP.2.2.1]
    exact h6


/-- The append-if-unseen author fold keeps old elements and contains
the appended list. -/
theorem foldl_addUnique_mem (x : Str) :
    ∀ (l acc : List Str), x ∈ acc ∨ x ∈ l →
      x ∈ l.foldl (fun acc a => if a ∈ acc then acc else acc ++ [a]) acc
  | [], acc, h => h.resolve_right (fun hc => absurd hc (List.not_mem_nil x))
  | a :: t, acc, h => by
    simp only [List.foldl_cons]
    refine foldl_addUnique_mem x t _ ?_
    rcases h with h | h
    · left
      by_cases hc : a ∈ acc
      · rw [if_pos hc]; exact h
      · rw [if_neg hc]; exact List.mem_append_left _ h
    · rcases List.mem_cons.mp h with rfl | h2
      · left
        by_cases hc : x ∈ acc
        · rw [if_pos hc]; exact hc
        · rw [if_neg hc]; exact List.mem_append_right _ (List.mem_singleton_self _)
      · right; exact h2

/-- Elements of the running unions survive the rest of the merge
loop. -/
theorem foldMerge_mono (reg : List Article) :
    ∀ (l : List (Str × Nat)) (ms : MergeState),
      (∀ x ∈ ms.tracking,
        x ∈ (l.foldl (fun s e => mergeStep reg s e.2) ms).tracking) ∧
      (∀ x ∈ ms.old_dois,
        x ∈ (l.foldl (fun s e => mergeStep reg s e.2) ms).old_dois) ∧
      (∀ x ∈ ms.authors,
        x ∈ (l.foldl (fun s e => mergeStep reg s e.2) ms).authors)
  | [], _ => ⟨fun _ h => h, fun _ h => h, fun _ h => h⟩
  | e :: t, ms => by
    simp only [List.foldl_cons]
    obtain ⟨h1, h2, h3⟩ := foldMerge_mono reg t (mergeStep reg ms e.2)
    refine ⟨fun x hx => h1 x ?_, fun x hx => h2 x ?_, fun x hx => h3 x ?_⟩
    · rw [mergeStep_tracking]
      exact List.mem_dedup.mpr (List.mem_append_left _ hx)
    · exact mergeStep_old_dois reg ms e.2 x
        (List.mem_dedup.mpr (List.mem_append_left _ hx))
    · rw [mergeStep_authors]
      exact foldl_addUnique_mem x _ _ (Or.inl hx)

/-- Every processed secondary record's tracking entries, historical
DOIs and authors end up in the loop's final unions. -/
theorem foldMerge_covers (reg : List Article) :
    ∀ (l : List (Str × Nat)) (ms : MergeState) (e : Str × Nat), e ∈ l →
      (∀ x ∈ trackingOf (reg.getD e.2 default),
        x ∈ (l.foldl (fun s e => mergeStep reg s e.2) ms).tracking) ∧
      (∀ x ∈ oldDoisOf (reg.getD e.2 default),
        x ∈ (l.foldl (fun s e => mergeStep reg s e.2) ms).old_dois) ∧
      (∀ x ∈ authorsOf (reg.getD e.2 default),
        x ∈ (l.foldl (fun s e => mergeStep reg s e.2) ms).authors)
  | [], _, e, he => absurd he (List.not_mem_nil e)
  | e2 :: t, ms, e, he => by
    simp only [List.foldl_cons]
    rcases List.mem_cons.mp he with rfl | h2
    · obtain ⟨h1, h2, h3⟩ := foldMerge_mono reg t (mergeStep reg ms e.2)
      refine ⟨fun x hx => h1 x ?_, fun x hx => h2 x ?_, fun x hx => h3 x ?_⟩
      · rw [mergeStep_tracking]
        exact List.mem_dedup.mpr (List.mem_append_right _ hx)
      · exact mergeStep_old_dois reg ms e.2 x
          (List.mem_dedup.mpr (List.mem_append_right _ hx))
      · rw [mergeStep_authors]
        exact foldl_addUnique_mem x _ _ (Or.inr hx)
    · exact foldMerge_covers reg t (mergeStep reg ms e2.2) e h2

/-- The snapshot/DataFrame DOI sync and the current-DOI-in-old_dois
presence in old_dois hold at the end of the merge loop. -/
theorem foldMerge_doi_inv (reg : List Article) :
    ∀ (l : List (Str × Nat)) (ms : MergeState),
      ms.snapDoi = ms.dfDoi →
      (doiOk ms.dfDoi = true → cleanDoi (ms.dfDoi.getD []) ∈ ms.old_dois) →
      (doiOk (l.foldl (fun s e => mergeStep reg s e.2) ms).dfDoi = true →
        cleanDoi ((l.foldl (fun s e => mergeStep reg s e.2) ms).dfDoi.getD []) ∈
          (l.foldl (fun s e => mergeStep reg s e.2) ms).old_dois)
  | [], _, _, hinv => hinv
  | e :: t, ms, hsync, hinv => by
    simp only [List.foldl_cons]
    obtain ⟨h1, h2⟩ := mergeStep_doi_inv reg ms e.2 hsync hinv
    exact foldMerge_doi_inv reg t (mergeStep reg ms e.2) h1 h2

/-- The written-back main record exposes exactly the loop's unions and
its written DOI. -/
theorem mergeWriteBack_fields (main : Article) (ms : MergeState) (rand : Str) :
    trackingOf (mergeWriteBack main ms rand) = ms.tracking ∧
    oldDoisOf (mergeWriteBack main ms rand) = ms.old_dois ∧
    authorsOf (mergeWriteBack main ms rand) = ms.authors ∧
    (mergeWriteBack main ms rand).doi = ms.dfDoi :=
  ⟨rfl, rfl, rfl, rfl⟩

/-- The initial loop state carries the main record's own cells. -/
theorem mergeInit_fields (main : Article) :
    (mergeInit main).tracking = trackingOf main ∧
    (mergeInit main).old_dois = oldDoisOf main ∧
    (mergeInit main).authors = authorsOf main ∧
    (mergeInit main).dfDoi = main.doi ∧
    (mergeInit main).snapDoi = main.doi :=
  ⟨rfl, rfl, rfl, rfl, rfl⟩


/-- A key present among an association list's keys is looked up to a
binding of the list. -/
theorem dlookup_mem {κ α : Type} [DecidableEq κ] (k : κ) :
    ∀ (l : List (κ × α)), k ∈ l.map Prod.fst →
      ∃ v, dlookup k l = some v ∧ (k, v) ∈ l
  | [], h => absurd h (List.not_mem_nil k)
  | (k2, v2) :: t, h => by
    by_cases h2 : k2 = k
    · subst h2
      refine ⟨v2, ?_, List.mem_cons_self _ _⟩
      simp [dlookup, List.find?]
    · have hk : k ∈ t.map Prod.fst := by
        rcases List.mem_cons.mp h with h3 | h3
        · exact absurd h3.symm h2
        · exact h3
      obtain ⟨v, hv, hm⟩ := dlookup_mem k t hk
      refine ⟨v, ?_, List.mem_cons_of_mem _ hm⟩
      have hd : (decide ((k2, v2).1 = k)) = false := by simpa using h2
      simpa [dlookup, List.find?, hd] using hv

/-- When every requested id was located, the `id_to_idx` keys are a
permutation of the requested ids. -/
theorem idToIdx_keys_perm (reg : List Article) (ids : List Str)
    (h2 : (idToIdx reg ids).length = ids.length) :
    ((idToIdx reg ids).map Prod.fst).Perm ids := by
  have hnd := idToIdx_keys_nodup reg ids
  have hsub : ((idToIdx reg ids).map Prod.fst) ⊆ ids := by
    intro x hx
    obtain ⟨e, he, rfl⟩ := List.mem_map.mp hx
    exact (idToIdx_mem reg ids e he).1
  refine (hnd.subperm hsub).perm_of_length_le ?_
  rw [List.length_map, h2]

/-- On the success path the selected main entry is a located entry. -/
theorem mainSel_mem (reg : List Article) (ids : List Str)
    (h1 : ¬ ids.length ≤ 1) (h2 : (idToIdx reg ids).length = ids.length) :
    mainSel reg ids (idToIdx reg ids) ∈ idToIdx reg ids := by
  unfold mainSel
  cases hf : (idToIdx reg ids).find? (fun e => doiOk (reg.getD e.2 default).doi) with
  | some e =>
    simp only []
    exact List.mem_of_find?_eq_some hf
  | none =>
    simp only []
    have hh : ids.headD [] ∈ ids := by
      cases ids with
      | nil => simp at h1
      | cons a t => exact List.mem_cons_self a t
    have hk : ids.headD [] ∈ (idToIdx reg ids).map Prod.fst :=
      (idToIdx_keys_perm reg ids h2).mem_iff.mpr hh
    obtain ⟨v, hv, hm⟩ := dlookup_mem (ids.headD []) (idToIdx reg ids) hk
    rw [hv]
    exact hm

/-- `merge_articles` never changes the number of registry rows. -/
theorem merge_articles_length (reg : List Article) (ids : List Str) (rand : Str) :
    (merge_articles reg ids rand).2.length = reg.length := by
  by_cases h0 : reg.length = 0
  · simp only [merge_articles, if_pos h0]
  by_cases h1 : ids.length ≤ 1
  · simp only [merge_articles, if_neg h0, if_pos h1]
  by_cases h2 : (idToIdx reg ids).length ≠ ids.length
  · simp only [merge_articles, if_neg h0, if_neg h1, if_pos h2]
  · simp only [merge_articles, if_neg h0, if_neg h1, if_neg h2]
    exact List.length_set reg _ _

/-- Success of `merge_articles` passes the three failure guards. -/
theorem merge_success_conds (reg : List Article) (ids : List Str) (rand : Str)
    (h : (merge_articles reg ids rand).1.1 = true) :
    reg.length ≠ 0 ∧ ¬ ids.length ≤ 1 ∧
      (idToIdx reg ids).length = ids.length := by
  by_cases h0 : reg.length = 0
  · simp only [merge_articles, if_pos h0] at h
    exact absurd h (by simp)
  by_cases h1 : ids.length ≤ 1
  · simp only [merge_articles, if_neg h0, if_pos h1] at h
    exact absurd h (by simp)
  by_cases h2 : (idToIdx reg ids).length ≠ ids.length
  · simp only [merge_articles, if_neg h0, if_neg h1, if_pos h2] at h
    exact absurd h (by simp)
  · exact ⟨h0, h1, Decidable.not_not.mp h2⟩

/-- The success-path value of `merge_articles`: the written-back main
record, at the selected position, also named by the returned id. -/
theorem merge_articles_success_eq (reg : List Article) (ids : List Str)
    (rand : Str)
    (h0 : reg.length ≠ 0) (h1 : ¬ ids.length ≤ 1)
    (h2 : (idToIdx reg ids).length = ids.length) :
    merge_articles reg ids rand =
      ((true, some (mergeWriteBack
          (reg.getD (mainSel reg ids (idToIdx reg ids)).2 default)
          (((idToIdx reg ids).filter
              (fun e => e.1 ≠ (mainSel reg ids (idToIdx reg ids)).1)).foldl
            (fun s e => mergeStep reg s e.2)
            (mergeInit (reg.getD (mainSel reg ids (idToIdx reg ids)).2 default)))
          rand).articleID),
        reg.set (mainSel reg ids (idToIdx reg ids)).2
          (mergeWriteBack
            (reg.getD (mainSel reg ids (idToIdx reg ids)).2 default)
            (((idToIdx reg ids).filter
                (fun e => e.1 ≠ (mainSel reg ids (idToIdx reg ids)).1)).foldl
              (fun s e => mergeStep reg s e.2)
              (mergeInit (reg.getD (mainSel reg ids (idToIdx reg ids)).2 default)))
            rand)) := by
  have hne : ¬ (idToIdx reg ids).length ≠ ids.length := by simp [h2]
  simp only [merge_articles, if_neg h0, if_neg h1, if_neg hne]

/-- Two bindings of a key-distinct association list with the same key
are equal. -/
theorem keyed_unique {κ α : Type} :
    ∀ (l : List (κ × α)), (l.map Prod.fst).Nodup →
      ∀ e1 e2, e1 ∈ l → e2 ∈ l → e1.1 = e2.1 → e1 = e2
  | [], _, e1, _, h1, _, _ => absurd h1 (List.not_mem_nil e1)
  | a :: t, hnd, e1, e2, h1, h2, hk => by
    rw [List.map_cons, List.nodup_cons] at hnd
    rcases List.mem_cons.mp h1 with rfl | h1t
    · rcases List.mem_cons.mp h2 with rfl | h2t
      · rfl
      · exact absurd (hk ▸ List.mem_map_of_mem Prod.fst h2t) hnd.1
    · rcases List.mem_cons.mp h2 with rfl | h2t
      · exact absurd (hk ▸ List.mem_map_of_mem Prod.fst h1t) hnd.1
      · exact keyed_unique t hnd.2 e1 e2 h1t h2t hk


/-- On success the surviving row at the selected position is the
written-back main record. -/
theorem merge_final_eq (reg : List Article) (ids : List Str) (rand : Str)
    (h0 : reg.length ≠ 0) (h1 : ¬ ids.length ≤ 1)
    (h2 : (idToIdx reg ids).length = ids.length) :
    (merge_articles reg ids rand).2.getD
        (mainSel reg ids (idToIdx reg ids)).2 default =
      mergeWriteBack (reg.getD (mainSel reg ids (idToIdx reg ids)).2 default)
        (((idToIdx reg ids).filter
            (fun e => e.1 ≠ (mainSel reg ids (idToIdx reg ids)).1)).foldl
          (fun s e => mergeStep reg s e.2)
          (mergeInit (reg.getD (mainSel reg ids (idToIdx reg ids)).2 default)))
        rand := by
  have hlt : (mainSel reg ids (idToIdx reg ids)).2 < reg.length :=
    (idToIdx_mem reg ids _ (mainSel_mem reg ids h1 h2)).2.1
  rw [merge_articles_success_eq reg ids rand h0 h1 h2]
  rw [List.getD_eq_getElem?_getD, List.getElem?_set_self hlt, Option.getD_some]

/-- Every located record's tracking entries, historical DOIs and
authors survive into the merged main record. -/
theorem merge_preserves_fields (reg : List Article) (ids : List Str) (rand : Str)
    (hsucc : (merge_articles reg ids rand).1.1 = true) :
    ∀ e ∈ idToIdx reg ids,
      (∀ x ∈ trackingOf (reg.getD e.2 default),
        x ∈ trackingOf ((merge_articles reg ids rand).2.getD
          (mainSel reg ids (idToIdx reg ids)).2 default)) ∧
      (∀ x ∈ oldDoisOf (reg.getD e.2 default),
        x ∈ oldDoisOf ((merge_articles reg ids rand).2.getD
          (mainSel reg ids (idToIdx reg ids)).2 default)) ∧
      (∀ x ∈ authorsOf (reg.getD e.2 default),
        x ∈ authorsOf ((merge_articles reg ids rand).2.getD
          (mainSel reg ids (idToIdx reg ids)).2 default)) := by
  obtain ⟨h0, h1, h2⟩ := merge_success_conds reg ids rand hsucc
  have hfin := merge_final_eq reg ids rand h0 h1 h2
  intro e he
  rw [hfin]
  rw [(mergeWriteBack_fields _ _ _).1, (mergeWriteBack_fields _ _ _).2.1,
    (mergeWriteBack_fields _ _ _).2.2.1]
  by_cases hke : e.1 = (mainSel reg ids (idToIdx reg ids)).1
  · have heq : e = mainSel reg ids (idToIdx reg ids) :=
      keyed_unique _ (idToIdx_keys_nodup reg ids) e _ he
        (mainSel_mem reg ids h1 h2) hke
    subst heq
    obtain ⟨m1, m2, m3⟩ := foldMerge_mono reg
      ((idToIdx reg ids).filter (fun e2 => e2.1 ≠ (mainSel reg ids (idToIdx reg ids)).1))
      (mergeInit (reg.getD (mainSel reg ids (idToIdx reg ids)).2 default))
    exact ⟨fun x hx => m1 x hx, fun x hx => m2 x hx, fun x hx => m3 x hx⟩
  · exact foldMerge_covers reg _ _ e (List.mem_filter.mpr ⟨he, decide_eq_true hke⟩)

/-- On success, the merged main record's current DOI (when usable) is
recorded, normalized, in its `old_dois`. -/
theorem merge_doi_inv_final (reg : List Article) (ids : List Str) (rand : Str)
    (hsucc : (merge_articles reg ids rand).1.1 = true)
    (hdoi : doiOk (reg.getD (mainSel reg ids (idToIdx reg ids)).2 default).doi = true →
      cleanDoi ((reg.getD (mainSel reg ids (idToIdx reg ids)).2 default).doi.getD []) ∈
        oldDoisOf (reg.getD (mainSel reg ids (idToIdx reg ids)).2 default)) :
    doiOk ((merge_articles reg ids rand).2.getD
        (mainSel reg ids (idToIdx reg ids)).2 default).doi = true →
      cleanDoi (((merge_articles reg ids rand).2.getD
        (mainSel reg ids (idToIdx reg ids)).2 default).doi.getD []) ∈
        oldDoisOf ((merge_articles reg ids rand).2.getD
          (mainSel reg ids (idToIdx reg ids)).2 default) := by
  obtain ⟨h0, h1, h2⟩ := merge_success_conds reg ids rand hsucc
  rw [merge_final_eq reg ids rand h0 h1 h2]
  rw [(mergeWriteBack_fields _ _ _).2.2.2, (mergeWriteBack_fields _ _ _).2.1]
  exact foldMerge_doi_inv reg _ _ rfl hdoi


/-- Filtering pairs on a first-component predicate matches filtering
the first components. -/
theorem filter_fst_length (il : List Nat) :
    ∀ (zs : List (Nat × Article)),
      (zs.filter (fun p => p.1 ∉ il)).length =
        ((zs.map Prod.fst).filter (fun i => i ∉ il)).length
  | [] => rfl
  | a :: t => by
    have ih := filter_fst_length il t
    simp only [decide_not] at ih
    by_cases h : a.1 ∈ il <;> simp [List.filter_cons, h, decide_not] <;> omega

/-- A list splits into the rows kept and the rows dropped. -/
theorem filter_mem_split (il : List Nat) :
    ∀ (rs : List Nat),
      (rs.filter (fun i => i ∉ il)).length +
        (rs.filter (fun i => i ∈ il)).length = rs.length
  | [] => rfl
  | a :: t => by
    have ih := filter_mem_split il t
    simp only [decide_not] at ih
    by_cases h : a ∈ il <;> simp [List.filter_cons, h, decide_not] <;> omega

/-- Dropping a distinct in-range set of row positions removes exactly
that many rows. -/
theorem removeIdxs_length (l : List Article) (il : List Nat)
    (hnd : il.Nodup) (hb : ∀ i ∈ il, i < l.length) :
    (removeIdxs l il).length = l.length - il.length := by
  unfold removeIdxs
  rw [List.length_map, filter_fst_length il l.enum, List.enum_map_fst]
  have hperm : ((List.range l.length).filter (fun i => i ∈ il)).Perm il := by
    refine (List.perm_ext_iff_of_nodup ((List.nodup_range _).filter _) hnd).mpr ?_
    intro a
    simp only [List.mem_filter, List.mem_range, decide_eq_true_eq]
    exact ⟨fun h => h.2, fun h => ⟨hb a h, h⟩⟩
  have hsplit := filter_mem_split il (List.range l.length)
  rw [hperm.length_eq, List.length_range] at hsplit
  omega

/-- Filtering out one occurrence of a member of a duplicate-free list
removes exactly one element. -/
theorem filter_ne_length :
    ∀ (il : List Nat), il.Nodup → ∀ mi ∈ il,
      (il.filter (fun i => i ≠ mi)).length = il.length - 1
  | [], _, mi, hmi => absurd hmi (List.not_mem_nil mi)
  | a :: t, hnd, mi, hmi => by
    rw [List.nodup_cons] at hnd
    by_cases ha : a = mi
    · subst ha
      have hfe : t.filter (fun i => i ≠ a) = t :=
        List.filter_eq_self.mpr
          (fun b hb => decide_eq_true (fun he => hnd.1 (he ▸ hb)))
      rw [List.filter_cons, if_neg (by simp), hfe, List.length_cons]
      omega
    · have hmt : mi ∈ t := by
        rcases List.mem_cons.mp hmi with h | h
        · exact absurd h.symm ha
        · exact h
      have ih := filter_ne_length t hnd.2 mi hmt
      have hlp : 0 < t.length := List.length_pos.mpr
        (fun he => by rw [he] at hmt; exact absurd hmt (List.not_mem_nil mi))
      rw [List.filter_cons, if_pos (decide_eq_true ha)]
      simp only [List.length_cons, ih]
      omega


/-- Count bookkeeping for the per-group deletion step of clean. -/
theorem cleanMerge_count_aux (reg2 reg : List Article) (idxs : List Nat)
    (mi : Nat) (art : Article) (hlen : reg2.length = reg.length)
    (hnd : idxs.Nodup) (hb : ∀ i ∈ idxs, i < reg.length) (hmi : mi ∈ idxs) :
    (removeIdxs (reg2.set mi art) (idxs.filter (fun i => i ≠ mi))).length =
      reg.length - (idxs.length - 1) := by
  rw [removeIdxs_length _ _ (hnd.filter _) (fun i hi => by
    rw [List.length_set, hlen]
    exact hb i (List.mem_of_mem_filter hi))]
  rw [List.length_set, hlen, filter_ne_length idxs hnd mi hmi]

/-- **C2**: a successful merge loses no data — every located input
record's tracking entries, historical DOIs and author references
appear in the surviving merged record — and the article count shrinks
only in clean's deletion step, by exactly the number of absorbed
duplicates (`merge_articles` itself never changes the row count). -/
theorem C2_merge_data_preservation (reg : List Article) (ids : List Str)
    (rand : Str) (hsucc : (merge_articles reg ids rand).1.1 = true) :
    (merge_articles reg ids rand).2.length = reg.length ∧
    (∀ e ∈ idToIdx reg ids,
      (∀ x ∈ trackingOf (reg.getD e.2 default),
        x ∈ trackingOf ((merge_articles reg ids rand).2.getD
          (mainSel reg ids (idToIdx reg ids)).2 default)) ∧
      (∀ x ∈ oldDoisOf (reg.getD e.2 default),
        x ∈ oldDoisOf ((merge_articles reg ids rand).2.getD
          (mainSel reg ids (idToIdx reg ids)).2 default)) ∧
      (∀ x ∈ authorsOf (reg.getD e.2 default),
        x ∈ authorsOf ((merge_articles reg ids rand).2.getD
          (mainSel reg ids (idToIdx reg ids)).2 default))) ∧
    (∀ (idxs : List Nat) (mi : Nat), idxs.Nodup →
      (∀ i ∈ idxs, i < reg.length) →
      (merge_articles reg (groupIds reg idxs) rand).1.1 = true →
      idxs.find? (fun i =>
        decide (((merge_articles reg (groupIds reg idxs) rand).2.getD i
            default).articleID =
          (merge_articles reg (groupIds reg idxs) rand).1.2.getD [])) = some mi →
      (cleanMergeGroup reg idxs rand).length = reg.length - (idxs.length - 1)) := by
  refine ⟨merge_articles_length reg ids rand,
    merge_preserves_fields reg ids rand hsucc, ?_⟩
  intro idxs mi hnd hb hs2 hfind
  have hmi : mi ∈ idxs := List.mem_of_find?_eq_some hfind
  simp only [cleanMergeGroup]
  rw [if_pos hs2, hfind]
  exact cleanMerge_count_aux _ reg idxs mi _
    (merge_articles_length reg (groupIds reg idxs) rand) hnd hb hmi

/-- A two-record registry: a DOI-bearing row with one author, and a
DOI-less row with its own author, tracking entries and old DOI. -/
def artC2a : Article :=
  ⟨['a'], some ('1' :: '0' :: '.' :: '1' :: '/' :: ['x']), none, none, none,
    some [['u']], none, none, none, none, none⟩

/-- See `artC2a`. -/
def artC2b : Article :=
  ⟨['b'], none, none, none, none, some [['v']], none, none, none,
    some [['b'], ['t']], some [['z']]⟩

/-- See `artC2a`. -/
def regC2 : List Article := [artC2a, artC2b]

/-- **C2** (witness): merging the two-record registry keeps the
absorbed record's tracking entry `"t"` and drops exactly one row. -/
theorem C2_merge_data_preservation_witness :
    (['t'] : Str) ∈ trackingOf ((merge_articles regC2 [['a'], ['b']] ['Q']).2.getD
      (mainSel regC2 [['a'], ['b']] (idToIdx regC2 [['a'], ['b']])).2 default) ∧
    (cleanMergeGroup regC2 [0, 1] ['Q']).length =
      regC2.length - ([0, 1].length - 1) := by
  have h := C2_merge_data_preservation regC2 [['a'], ['b']] ['Q'] (by decide)
  exact ⟨(h.2.1 (['b'], 1) (by decide)).1 ['t'] (by decide),
    h.2.2 [0, 1] 0 (by decide) (by decide) (by decide) (by decide)⟩


/-- clean's column initialization establishes the id-in-tracking and
DOI-in-old_dois invariant on every row. -/
theorem clean_init_establishes (reg : List Article) :
    ∀ a ∈ clean_init false false reg,
      a.articleID ∈ trackingOf a ∧
      (doiOk a.doi = true → cleanDoi (a.doi.getD []) ∈ oldDoisOf a) := by
  intro a ha
  simp only [clean_init, Bool.false_eq_true, if_false] at ha
  obtain ⟨c, hc, rfl⟩ := List.mem_map.mp ha
  obtain ⟨b, hb, rfl⟩ := List.mem_map.mp hc
  refine ⟨List.mem_singleton_self _, fun hok => ?_⟩
  cases hd : b.doi with
  | none =>
    have hok2 : doiOk b.doi = true := hok
    rw [hd] at hok2
    exact absurd hok2 (by simp [doiOk])
  | some d =>
    have hok2 : doiOk b.doi = true := hok
    rw [hd] at hok2
    have h1 : d ≠ [] ∧ d ≠ emptyStr := of_decide_eq_true (by simpa [doiOk] using hok2)
    show cleanDoi ((some d).getD []) ∈
      (if d ≠ [] ∧ d ≠ emptyStr then [cleanDoi d] else [])
    rw [if_pos h1]
    exact List.mem_singleton_self _

/-- A two-record registry with a DOI-bearing and a DOI-less row,
both without tracking cells. -/
def artC3a : Article :=
  ⟨['a'], some ('1' :: '0' :: '.' :: '1' :: '/' :: ['x']), none, none, none,
    none, none, none, none, none, none⟩

/-- See `artC3a`. -/
def artC3b : Article :=
  ⟨['b'], none, none, none, none, none, none, none, none, none, none⟩

/-- See `artC3a`. -/
def regC3 : List Article := [artC3a, artC3b]

/-- **C3** (counterexample): after a successful merge the surviving
record's re-derived current Article_ID is NOT in its tracking set:
the merged tracking holds only the two pre-merge ids. -/
theorem C3_merged_id_not_tracked_cex :
    (merge_articles regC3 [['a'], ['b']] ['Q']).1.1 = true ∧
    ((merge_articles regC3 [['a'], ['b']] ['Q']).2.getD 0 default).articleID ∉
      trackingOf ((merge_articles regC3 [['a'], ['b']] ['Q']).2.getD 0 default) := by
  decide

/-- **C3** (amended): clean's column initialization establishes the
invariant, and a successful merge keeps every located record's
pre-merge id in the merged tracking set and the merged record's
current DOI (when usable) in its old_dois — but the re-derived
Article_ID written at the end of merge_articles is not added to
tracking, so the id half of the invariant breaks whenever the
regenerated id differs from every pre-merge tracked id. -/
theorem C3_tracking_invariant (reg : List Article) (ids : List Str) (rand : Str)
    (hsucc : (merge_articles reg ids rand).1.1 = true)
    (hself : ∀ e ∈ idToIdx reg ids,
      (reg.getD e.2 default).articleID ∈ trackingOf (reg.getD e.2 default))
    (hdoi : ∀ e ∈ idToIdx reg ids,
      doiOk (reg.getD e.2 default).doi = true →
        cleanDoi ((reg.getD e.2 default).doi.getD []) ∈
          oldDoisOf (reg.getD e.2 default)) :
    (∀ a ∈ clean_init false false reg,
      a.articleID ∈ trackingOf a ∧
      (doiOk a.doi = true → cleanDoi (a.doi.getD []) ∈ oldDoisOf a)) ∧
    (∀ e ∈ idToIdx reg ids,
      (reg.getD e.2 default).articleID ∈
        trackingOf ((merge_articles reg ids rand).2.getD
          (mainSel reg ids (idToIdx reg ids)).2 default)) ∧
    (doiOk ((merge_articles reg ids rand).2.getD
        (mainSel reg ids (idToIdx reg ids)).2 default).doi = true →
      cleanDoi (((merge_articles reg ids rand).2.getD
        (mainSel reg ids (idToIdx reg ids)).2 default).doi.getD []) ∈
        oldDoisOf ((merge_articles reg ids rand).2.getD
          (mainSel reg ids (idToIdx reg ids)).2 default)) := by
  obtain ⟨h0, h1, h2⟩ := merge_success_conds reg ids rand hsucc
  refine ⟨clean_init_establishes reg, ?_, ?_⟩
  · intro e he
    exact (merge_preserves_fields reg ids rand hsucc e he).1 _ (hself e he)
  · exact merge_doi_inv_final reg ids rand hsucc
      (hdoi _ (mainSel_mem reg ids h1 h2))

/-- **C3** (witness): the amended theorem at the two-record registry,
whose rows have no tracking or old_dois cells. -/
theorem C3_tracking_invariant_witness :
    (∀ a ∈ clean_init false false regC3,
      a.articleID ∈ trackingOf a ∧
      (doiOk a.doi = true → cleanDoi (a.doi.getD []) ∈ oldDoisOf a)) ∧
    (∀ e ∈ idToIdx regC3 [['a'], ['b']],
      (regC3.getD e.2 default).articleID ∈
        trackingOf ((merge_articles regC3 [['a'], ['b']] ['Q']).2.getD
          (mainSel regC3 [['a'], ['b']] (idToIdx regC3 [['a'], ['b']])).2 default)) ∧
    (doiOk ((merge_articles regC3 [['a'], ['b']] ['Q']).2.getD
        (mainSel regC3 [['a'], ['b']] (idToIdx regC3 [['a'], ['b']])).2 default).doi = true →
      cleanDoi (((merge_articles regC3 [['a'], ['b']] ['Q']).2.getD
        (mainSel regC3 [['a'], ['b']] (idToIdx regC3 [['a'], ['b']])).2 default).doi.getD []) ∈
        oldDoisOf ((merge_articles regC3 [['a'], ['b']] ['Q']).2.getD
          (mainSel regC3 [['a'], ['b']] (idToIdx regC3 [['a'], ['b']])).2 default)) :=
  C3_tracking_invariant regC3 [['a'], ['b']] ['Q']
    (by decide) (by decide) (by decide)


/-! ### C9: title-group conflict classification -/

/-- Appending to a title group keeps the key list, or appends the
fresh key. -/
theorem keys_ginsert (k : Str) (i : Nat) :
    ∀ (g : List (Str × List Nat)), (ginsert k i g).map Prod.fst =
      if k ∈ g.map Prod.fst then g.map Prod.fst else g.map Prod.fst ++ [k]
  | [] => by simp [ginsert]
  | (k2, l) :: t => by
    simp only [ginsert]
    by_cases h : k2 = k
    · subst h
      rw [if_pos rfl, if_pos (by simp)]
      simp
    · rw [if_neg h]
      simp only [List.map_cons]
      by_cases h2 : k ∈ t.map Prod.fst
      · rw [if_pos (List.mem_cons_of_mem _ h2), keys_ginsert k i t, if_pos h2]
      · have hnk : ¬ k ∈ k2 :: t.map Prod.fst := by
          simp only [List.mem_cons]
          rintro (rfl | hc)
          · exact h rfl
          · exact h2 hc
        rw [if_neg hnk, keys_ginsert k i t, if_neg h2]
        simp

/-- Appending to a title group preserves distinctness of the keys. -/
theorem ginsert_keys_nodup (k : Str) (i : Nat) (g : List (Str × List Nat))
    (h : (g.map Prod.fst).Nodup) : ((ginsert k i g).map Prod.fst).Nodup := by
  rw [keys_ginsert]
  by_cases h2 : k ∈ g.map Prod.fst
  · rw [if_pos h2]; exact h
  · rw [if_neg h2]
    refine List.Nodup.append h (List.nodup_singleton _) ?_
    intro a ha hb
    rw [List.mem_singleton] at hb
    subst hb
    exact h2 ha

/-- A property preserved by every fold step holds at the end. -/
theorem foldl_preserve {α β : Type} (P : α → Prop) (sf : α → β → α)
    (hP : ∀ a b, P a → P (sf a b)) :
    ∀ (l : List β) (a0 : α), P a0 → P (l.foldl sf a0)
  | [], _, h => h
  | b :: t, a0, h => foldl_preserve P sf hP t (sf a0 b) (hP a0 b h)

/-- The standardized titles keying the title groups are pairwise
distinct. -/
theorem titleGroups_keys_nodup (reg : List Article) :
    (((titleGroups reg).map Prod.fst)).Nodup := by
  unfold titleGroups
  have base : (([] : List (Str × List Nat)).map Prod.fst).Nodup := by simp
  exact foldl_preserve (fun g => (g.map Prod.fst).Nodup)
    (fun g p =>
      let t := stdTitle p.2.title
      if stripPy t ≠ [] ∧ 5 ≤ t.length then ginsert t p.1 g else g)
    (fun g p h => by
      dsimp only
      split
      · exact ginsert_keys_nodup _ _ _ h
      · exact h)
    reg.enum [] base

/-- The classification keeps the group's standardized title as the
key of a safe-to-merge entry. -/
theorem classifyGroup_inl_key (reg : List Article) (g : Str × List Nat)
    (x : Str × List Nat) (h : classifyGroup reg g = Sum.inl x) : x.1 = g.1 := by
  simp only [classifyGroup] at h
  split at h
  · exact absurd h (by simp)
  · split at h
    · obtain rfl := Sum.inl.inj h
      rfl
    · obtain rfl := Sum.inl.inj h
      rfl

/-- **C9**: a title group of two or more records holding two or more
distinct non-empty DOIs is reported as a conflict by
`identify_title_duplicates` and no safe-to-merge group (the only
groups clean's step 2 merges) carries its title; a group holding
exactly one distinct non-empty DOI is classified safe to merge, with
the DOI-less records appended. -/
theorem C9_title_conflict_classification (reg : List Article)
    (g : Str × List Nat) (hg : g ∈ titleGroups reg) (hlen : 1 < g.2.length) :
    (1 < (groupDois reg g.2).1.length →
      conflictInfo reg g ∈ (identify_title_duplicates reg).2 ∧
      ∀ x ∈ clean_title_merge_list reg, x.1 ≠ g.1) ∧
    ((groupDois reg g.2).1.length = 1 →
      (g.1, ((groupDois reg g.2).1.headD ([], [])).2 ++ (groupDois reg g.2).2) ∈
        clean_title_merge_list reg) := by
  have hdup : g ∈ (titleGroups reg).filter (fun g2 => decide (1 < g2.2.length)) :=
    List.mem_filter.mpr ⟨hg, decide_eq_true hlen⟩
  have hdupnd : ((((titleGroups reg).filter
      (fun g2 => decide (1 < g2.2.length))).map Prod.fst)).Nodup :=
    (titleGroups_keys_nodup reg).sublist ((List.filter_sublist _).map Prod.fst)
  constructor
  · intro hcon
    have hcls : classifyGroup reg g = Sum.inr (conflictInfo reg g) := by
      simp only [classifyGroup]
      rw [if_pos hcon]
    constructor
    · simp only [identify_title_duplicates]
      refine List.mem_filterMap.mpr ⟨g, hdup, ?_⟩
      rw [hcls]
    · intro x hx hkx
      simp only [clean_title_merge_list, identify_title_duplicates] at hx
      obtain ⟨g2, hg2, hg2c⟩ := List.mem_filterMap.mp hx
      cases hcg : classifyGroup reg g2 with
      | inr y =>
        rw [hcg] at hg2c
        exact Option.noConfusion hg2c
      | inl y =>
        rw [hcg] at hg2c
        have hyx : y = x := Option.some.inj hg2c
        subst hyx
        have hk : g2.1 = g.1 := by
          rw [← classifyGroup_inl_key reg g2 y hcg]
          exact hkx
        have hgg : g2 = g := keyed_unique _ hdupnd g2 g hg2 hdup hk
        rw [hgg, hcls] at hcg
        exact Sum.noConfusion hcg
  · intro hone
    have hcls : classifyGroup reg g =
        Sum.inl (g.1, ((groupDois reg g.2).1.headD ([], [])).2 ++
          (groupDois reg g.2).2) := by
      simp only [classifyGroup]
      rw [if_neg (by omega), if_pos hone]
    simp only [clean_title_merge_list, identify_title_duplicates]
    refine List.mem_filterMap.mpr ⟨g, hdup, ?_⟩
    rw [hcls]

/-- The shared title of the conflict registry below: standardizes to
`"alpha beta"` (10 characters). -/
def titleC9 : Str :=
  ('A' :: 'l' :: 'p' :: 'h' :: 'a' :: ' ' :: 'B' :: 'e' :: 't' :: ['a'])

/-- A row with DOI `"10.1/x"` and the shared title. -/
def artC9a : Article :=
  ⟨['a'], some ('1' :: '0' :: '.' :: '1' :: '/' :: ['x']), some titleC9,
    none, none, none, none, none, none, none, none⟩

/-- A row with the distinct DOI `"10.2/y"` and the shared title. -/
def artC9b : Article :=
  ⟨['b'], some ('1' :: '0' :: '.' :: '2' :: '/' :: ['y']), some titleC9,
    none, none, none, none, none, none, none, none⟩

/-- See `artC9a`. -/
def regC9 : List Article := [artC9a, artC9b]

/-- **C9** (witness): the two same-title distinct-DOI rows form a
reported conflict group, and no safe-to-merge group carries their
title. -/
theorem C9_title_conflict_classification_witness :
    conflictInfo regC9 (stdTitle (some titleC9), [0, 1]) ∈
      (identify_title_duplicates regC9).2 ∧
    ∀ x ∈ clean_title_merge_list regC9, x.1 ≠ (stdTitle (some titleC9), [0, 1]).1 :=
  (C9_title_conflict_classification regC9 (stdTitle (some titleC9), [0, 1])
    (by decide) (by decide)).1 (by decide)

end SONaa
